import Mathlib

/-!
# Cache replacement engines `Cache_LFU` and `Cache_PCA` (src/inc/cache.hpp)

Shallow embedding of the two class templates of namespace `CACHES`.

Modelling conventions.

* `std::list<data_elem_t>` is a Lean list of nodes, front first.  A list iterator
  (`data_it`) is a stable reference to a node; it is modelled by a handle (a natural
  number) stored next to the payload.  The field `alloc_` is the handle the next
  `emplace_front` hands out, so a handle is never reused.
* `std::unordered_map<K, A>` is a function `K → Option A`.
* `std::set<E, Cmp>` is the list of its elements in iteration order (`begin()` is the
  head).  `emplace` refuses an element that is equivalent to a present one,
  `erase(key)` removes the elements equivalent to `key`, where equivalence is the one
  induced by the comparator (neither is less than the other).
* `std::deque` and `std::stack` are lists (front / top is the head).
* Operations whose C++ behaviour is undefined (dereferencing `end()` or an erased
  iterator, `pop_front`/`front` on an empty deque, `top` on an empty stack) return
  `none`.
* `size_t` values are natural numbers: counters never exceed `1`, sizes and positions
  are bounded by the length of the trace.
-/

namespace CACHES

set_option linter.unusedSectionVars false

/-- Payload of a node of `data_`. -/
structure data_elem_t (K V : Type) where
  key : K
  value : V

/-- Handle of a node of a `std::list` (the iterator type `data_it`). -/
abbrev data_it := Nat

/-- The type `list`: nodes `(handle, payload)`, front first. -/
abbrev list (K V : Type) := List (data_it × data_elem_t K V)

/-- Dereference of a list iterator: the payload of the node with handle `it`, or
`none` when no such node is in the list (erased or never allocated). -/
def deref {K V : Type} (data : list K V) (it : data_it) : Option (data_elem_t K V) :=
  (data.find? (fun n => n.1 == it)).map Prod.snd

/-- Effect of `std::list::erase(it)`: the node with handle `it` is unlinked. -/
def list_erase {K V : Type} (data : list K V) (it : data_it) : list K V :=
  data.filter (fun n => n.1 != it)

/-- Effect of `std::set::emplace` under comparator `cmp`: ordered insertion, refused
when an equivalent element is present. -/
def set_emplace {E : Type} (cmp : E → E → Bool) (e : E) : List E → List E
  | [] => [e]
  | x :: xs =>
    if cmp e x then e :: x :: xs
    else if cmp x e then x :: set_emplace cmp e xs
    else x :: xs

/-- Effect of `std::set::erase(const key_type&)` under comparator `cmp`: the elements
equivalent to `e` are removed. -/
def set_erase {E : Type} (cmp : E → E → Bool) (e : E) (s : List E) : List E :=
  s.filter (fun x => cmp x e || cmp e x)

/-- Effect of `std::unordered_map::erase(key)`. -/
def map_erase {K A : Type} [DecidableEq K] (m : K → Option A) (key : K) : K → Option A :=
  Function.update m key none

/-- Effect of `std::unordered_map::emplace` / `try_emplace`: no effect when the key is
present. -/
def map_emplace {K A : Type} [DecidableEq K] (m : K → Option A) (key : K) (a : A) :
    K → Option A :=
  match m key with
  | none => Function.update m key (some a)
  | some _ => m

/-! ## Cache_LFU -/

/-- Record of `elem_search_set_` and mapped value of `hash_table_`. -/
structure Cache_LFU.set_elem_t where
  iter : data_it
  counter : Nat
deriving DecidableEq

/-- Comparator of `elem_search_set_`: `lhs.counter < rhs.counter`. -/
def Cache_LFU.set_elem_cmp (lhs rhs : Cache_LFU.set_elem_t) : Bool :=
  decide (lhs.counter < rhs.counter)

/-- State of a `Cache_LFU<T, Key>` object. -/
structure Cache_LFU (K V : Type) where
  size_ : Nat
  data_ : list K V
  hash_table_ : K → Option Cache_LFU.set_elem_t
  elem_search_set_ : List Cache_LFU.set_elem_t
  alloc_ : data_it

namespace Cache_LFU

variable {K V : Type} [DecidableEq K]

/-- Constructor `Cache_LFU(size)`. -/
def new (size : Nat) : Cache_LFU K V :=
  { size_ := size, data_ := [], hash_table_ := fun _ => none, elem_search_set_ := [],
    alloc_ := 0 }

/-- Member `full()`. -/
def full (c : Cache_LFU K V) : Bool := c.data_.length == c.size_

/-- Member `size()`. -/
def size (c : Cache_LFU K V) : Nat := c.data_.length

/-- Member `max_size()`. -/
def max_size (c : Cache_LFU K V) : Nat := c.size_

/-- Member `clear()`: clears `data_` and `hash_table_` only. -/
def clear (c : Cache_LFU K V) : Cache_LFU K V :=
  { c with data_ := [], hash_table_ := fun _ => none }

/-- Member `insert_element(key, F)`. -/
def insert_element (c : Cache_LFU K V) (key : K) (F : K → V) : Cache_LFU K V :=
  { c with
    data_ := (c.alloc_, ⟨key, F key⟩) :: c.data_
    hash_table_ := map_emplace c.hash_table_ key ⟨c.alloc_, 0⟩
    elem_search_set_ := set_emplace set_elem_cmp ⟨c.alloc_, 0⟩ c.elem_search_set_
    alloc_ := c.alloc_ + 1 }

/-- Member `erase_element(elem)`; the set iterator `elem` is a position in
`elem_search_set_` (`begin()` is `0`). -/
def erase_element (c : Cache_LFU K V) (elem : Nat) : Option (Cache_LFU K V) :=
  match c.elem_search_set_[elem]? with
  | none => none
  | some rec =>
    let elim_data_it := rec.iter
    match deref c.data_ elim_data_it with
    | none => none
    | some node =>
      some { c with
        elem_search_set_ := c.elem_search_set_.eraseIdx elem
        hash_table_ := map_erase c.hash_table_ node.key
        data_ := list_erase c.data_ elim_data_it }

/-- Member `update_element_counter(elem)`. -/
def update_element_counter (c : Cache_LFU K V) (elem : set_elem_t) : Cache_LFU K V :=
  { c with
    elem_search_set_ :=
      set_emplace set_elem_cmp ⟨elem.iter, elem.counter + 1⟩
        (set_erase set_elem_cmp elem c.elem_search_set_) }

/-- Member `lookup_update(key, F)`: the returned flag and the state after the call. -/
def lookup_update (c : Cache_LFU K V) (key : K) (F : K → V) :
    Option (Bool × Cache_LFU K V) :=
  match c.hash_table_ key with
  | none =>
    if c.size_ = 0 then some (false, c)
    else if c.full then
      match c.erase_element 0 with
      | none => none
      | some c1 => some (false, c1.insert_element key F)
    else some (false, c.insert_element key F)
  | some hit => some (true, c.update_element_counter hit)

/-- A sequence of `lookup_update` calls, each with its own value producer: the flags
returned in order and the final state. -/
def replay (c : Cache_LFU K V) : List (K × (K → V)) → Option (List Bool × Cache_LFU K V)
  | [] => some ([], c)
  | (key, F) :: rest =>
    match c.lookup_update key F with
    | none => none
    | some (hit, c1) =>
      match replay c1 rest with
      | none => none
      | some (hits, c2) => some (hit :: hits, c2)

/-- Keys of the entries of `data_`, front first. -/
def keys (c : Cache_LFU K V) : List K := c.data_.map (fun n => n.2.key)

end Cache_LFU

/-! ## Cache_PCA -/

/-- Record of `data_fidx_`. -/
structure Cache_PCA.set_elem_t where
  iter : data_it
  index : Nat
deriving DecidableEq

/-- Comparator of `data_fidx_`: `lhs.index > rhs.index`. -/
def Cache_PCA.set_elem_cmp (lhs rhs : Cache_PCA.set_elem_t) : Bool :=
  decide (lhs.index > rhs.index)

/-- The pair type `fidx`: whether the key occurs again, and where. -/
abbrev Cache_PCA.fidx := Bool × Nat

/-- Static member `fidx_is_present`. -/
def Cache_PCA.fidx_is_present (arg : Cache_PCA.fidx) : Bool := arg.1

/-- Static member `fidx_index`. -/
def Cache_PCA.fidx_index (arg : Cache_PCA.fidx) : Nat := arg.2

/-- State of a `Cache_PCA<T, Key>` object. -/
structure Cache_PCA (K V : Type) where
  size_ : Nat
  data_ : list K V
  data_fidx_ : List Cache_PCA.set_elem_t
  key_seq_fidx_ : K → Option (List Nat)
  hash_table_ : K → Option data_it
  redundant_ : List data_it
  alloc_ : data_it

namespace Cache_PCA

variable {K V : Type} [DecidableEq K]

/-- Loop of the constructor: `key_seq_fidx_[*cur++].push_back(key_fidx)` for the
remaining keys, the first of which is at position `key_fidx`. -/
def fill_fidx (m : K → Option (List Nat)) : List K → Nat → K → Option (List Nat)
  | [], _ => m
  | key :: rest, key_fidx =>
    fill_fidx (Function.update m key (some ((m key).getD [] ++ [key_fidx]))) rest
      (key_fidx + 1)

/-- Constructor `Cache_PCA(size, first, last)` over the key sequence `key_seq`. -/
def new (size : Nat) (key_seq : List K) : Cache_PCA K V :=
  { size_ := size, data_ := [], data_fidx_ := []
    key_seq_fidx_ := fill_fidx (fun _ => none) key_seq 0
    hash_table_ := fun _ => none, redundant_ := [], alloc_ := 0 }

/-- Member `full()`. -/
def full (c : Cache_PCA K V) : Bool := c.data_.length == c.size_

/-- Member `size()`. -/
def size (c : Cache_PCA K V) : Nat := c.data_.length

/-- Member `max_size()`. -/
def max_size (c : Cache_PCA K V) : Nat := c.size_

-- Member `clear()` is not embedded: it calls `redundant_.clear()`, and `std::stack` has no
-- member `clear`, so the member function is ill-formed once it is instantiated.

/-- Member `get_elem_fidx(key)`: pops the front of the deque of `key` and reports the
new front.  `operator[]` on an absent key yields an empty deque, on which `pop_front`
is undefined. -/
def get_elem_fidx (c : Cache_PCA K V) (key : K) : Option (fidx × Cache_PCA K V) :=
  match (c.key_seq_fidx_ key).getD [] with
  | [] => none
  | _ :: deque =>
    let c1 := { c with key_seq_fidx_ := Function.update c.key_seq_fidx_ key (some deque) }
    match deque with
    | [] => some ((false, 0), c1)
    | front :: _ => some ((true, front), c1)

/-- Member `get_elim_from_redundant()`. -/
def get_elim_from_redundant (c : Cache_PCA K V) : Option (data_it × Cache_PCA K V) :=
  match c.redundant_ with
  | [] => none
  | elem :: rest => some (elem, { c with redundant_ := rest })

/-- Member `farthest_elem()`: `data_fidx_.begin()`, as a position. -/
def farthest_elem (_c : Cache_PCA K V) : Nat := 0

/-- Member `get_elim_from_data()`. -/
def get_elim_from_data (c : Cache_PCA K V) : Option (data_it × Cache_PCA K V) :=
  let farthest := c.farthest_elem
  match c.data_fidx_[farthest]? with
  | none => none
  | some rec => some (rec.iter, { c with data_fidx_ := c.data_fidx_.eraseIdx farthest })

/-- Member `erase_element(elem)`. -/
def erase_element (c : Cache_PCA K V) (elem : data_it) : Option (Cache_PCA K V) :=
  match deref c.data_ elem with
  | none => none
  | some node =>
    some { c with
      hash_table_ := map_erase c.hash_table_ node.key
      data_ := list_erase c.data_ elem }

/-- Member `insert_element(key, F)`. -/
def insert_element (c : Cache_PCA K V) (key : K) (F : K → V) : Cache_PCA K V :=
  { c with
    data_ := (c.alloc_, ⟨key, F key⟩) :: c.data_
    hash_table_ := map_emplace c.hash_table_ key c.alloc_
    alloc_ := c.alloc_ + 1 }

/-- Member `update_internals(idx, elem)`. -/
def update_internals (c : Cache_PCA K V) (idx : fidx) (elem : data_it) : Cache_PCA K V :=
  if fidx_is_present idx then
    { c with data_fidx_ := set_emplace set_elem_cmp ⟨elem, fidx_index idx⟩ c.data_fidx_ }
  else
    { c with redundant_ := elem :: c.redundant_ }

/-- Member `insert_update_internals(inserting_fidx)`; `data_.begin()` is the front node
(the one `insert_element` has just allocated).  On an empty list `begin()` is `end()`,
which refers to no node: `none`. -/
def insert_update_internals (c : Cache_PCA K V) (inserting_fidx : fidx) :
    Option (Cache_PCA K V) :=
  match c.data_ with
  | [] => none
  | n :: _ => some (c.update_internals inserting_fidx n.1)

/-- Member `hit_update_internals(key, elem)`. -/
def hit_update_internals (c : Cache_PCA K V) (key : K) (elem : data_it) :
    Option (Cache_PCA K V) :=
  match (c.key_seq_fidx_ key).getD [] with
  | [] => none
  | front :: _ =>
    let c1 := { c with data_fidx_ := set_erase set_elem_cmp ⟨elem, front⟩ c.data_fidx_ }
    match c1.get_elem_fidx key with
    | none => none
    | some (next, c2) => some (c2.update_internals next elem)

/-- Member `free_space(inserting_fidx)`. -/
def free_space (c : Cache_PCA K V) (inserting_fidx : fidx) :
    Option (Bool × Cache_PCA K V) :=
  if !fidx_is_present inserting_fidx then some (false, c)
  else if c.redundant_.length ≠ 0 then
    match c.get_elim_from_redundant with
    | none => none
    | some (elim, c1) => (c1.erase_element elim).map (fun c2 => (true, c2))
  else
    match c.data_fidx_[c.farthest_elem]? with
    | none => none
    | some far =>
      if inserting_fidx.2 ≥ far.index then some (false, c)
      else
        match c.get_elim_from_data with
        | none => none
        | some (elim, c1) => (c1.erase_element elim).map (fun c2 => (true, c2))

/-- Member `lookup_update(key, F)`: the returned flag and the state after the call. -/
def lookup_update (c : Cache_PCA K V) (key : K) (F : K → V) :
    Option (Bool × Cache_PCA K V) :=
  match c.hash_table_ key with
  | none =>
    if c.size_ = 0 then some (false, c)
    else
      match c.get_elem_fidx key with
      | none => none
      | some (inserting_fidx, c1) =>
        if c1.full then
          match c1.free_space inserting_fidx with
          | none => none
          | some (false, c2) => some (false, c2)
          | some (true, c2) =>
            ((c2.insert_element key F).insert_update_internals inserting_fidx).map
              (fun c3 => (false, c3))
        else
          ((c1.insert_element key F).insert_update_internals inserting_fidx).map
            (fun c3 => (false, c3))
  | some hit =>
    (c.hit_update_internals key hit).map (fun c1 => (true, c1))

/-- A sequence of `lookup_update` calls, each with its own value producer: the flags
returned in order and the final state. -/
def replay (c : Cache_PCA K V) : List (K × (K → V)) → Option (List Bool × Cache_PCA K V)
  | [] => some ([], c)
  | (key, F) :: rest =>
    match c.lookup_update key F with
    | none => none
    | some (hit, c1) =>
      match replay c1 rest with
      | none => none
      | some (hits, c2) => some (hit :: hits, c2)

/-- Keys of the entries of `data_`, front first. -/
def keys (c : Cache_PCA K V) : List K := c.data_.map (fun n => n.2.key)

end Cache_PCA

/-! ## Test driver (src/tests/inc/cache_oper.hpp) -/

/-- Function `test_cache` on a `Cache_LFU`: `lookup_update(key)` with the default value
producer for every key of `key_seq`; the number of hits. -/
def test_cache_LFU {K V : Type} [DecidableEq K] [Inhabited V] (cache : Cache_LFU K V) :
    List K → Option Nat
  | [] => some 0
  | key :: rest =>
    match cache.lookup_update key (fun _ => default) with
    | none => none
    | some (hit, c1) => (test_cache_LFU c1 rest).map (fun n => hit.toNat + n)

/-- Function `test_cache` on a `Cache_PCA`. -/
def test_cache_PCA {K V : Type} [DecidableEq K] [Inhabited V] (cache : Cache_PCA K V) :
    List K → Option Nat
  | [] => some 0
  | key :: rest =>
    match cache.lookup_update key (fun _ => default) with
    | none => none
    | some (hit, c1) => (test_cache_PCA c1 rest).map (fun n => hit.toNat + n)

/-! ## Trace positions, invariants and the predicates of the statements -/

/-- Positions at which `k` occurs in the remaining trace `rest`, whose first key is at
position `pos` of the whole trace; ascending. -/
def positions {K : Type} [DecidableEq K] (k : K) : List K → Nat → List Nat
  | [], _ => []
  | x :: rest, pos =>
    if x = k then pos :: positions k rest (pos + 1) else positions k rest (pos + 1)

/-- Next position at which `k` occurs in the remaining trace `rest` (first key at
position `pos`), if any. -/
def next_use {K : Type} [DecidableEq K] (k : K) (rest : List K) (pos : Nat) : Option Nat :=
  (positions k rest pos).head?

/-- Well-formedness of the entry store and key index of a `Cache_PCA` state. -/
structure Cache_PCA.StoreWF {K V : Type} (c : Cache_PCA K V) : Prop where
  handles_nodup : (c.data_.map Prod.fst).Nodup
  handles_lt : ∀ n ∈ c.data_, n.1 < c.alloc_
  keys_nodup : (c.data_.map (fun n => n.2.key)).Nodup
  hash_some : ∀ k it, c.hash_table_ k = some it → ∃ n ∈ c.data_, n.1 = it ∧ n.2.key = k
  hash_none : ∀ k, c.hash_table_ k = none → ∀ n ∈ c.data_, n.2.key ≠ k
  size_le : c.data_.length ≤ c.size_

/-- Agreement of the selector `sel` and the stack `red` with the store `data`, when
the keys still to be replayed are `rest`, starting at position `pos`. -/
structure Cache_PCA.AuxInv {K V : Type} [DecidableEq K] (pos : Nat) (rest : List K)
    (data : list K V) (sel : List Cache_PCA.set_elem_t) (red : List data_it) : Prop where
  sel_mem : ∀ r, r ∈ sel ↔ ∃ n ∈ data, n.1 = r.iter ∧ next_use n.2.key rest pos = some r.index
  red_mem : ∀ it, it ∈ red ↔ ∃ n ∈ data, n.1 = it ∧ next_use n.2.key rest pos = none
  sel_sorted : sel.Pairwise (fun a b => a.index > b.index)
  red_nodup : red.Nodup

/-- Invariant of a `Cache_PCA` state while its construction trace is replayed: `rest`
are the keys still to come, the first of them at position `pos`. -/
structure Cache_PCA.Inv {K V : Type} [DecidableEq K] (pos : Nat) (rest : List K)
    (c : Cache_PCA K V) : Prop where
  store : c.StoreWF
  fidx : ∀ k, (c.key_seq_fidx_ k).getD [] = positions k rest pos
  aux : Cache_PCA.AuxInv pos rest c.data_ c.data_fidx_ c.redundant_

/-- Structural well-formedness of a `Cache_LFU` state: handles and keys of `data_` are
distinct, `hash_table_` and `data_` hold the same keys, and the records of
`elem_search_set_` refer to distinct live nodes, with distinct counters among `0`, `1`. -/
structure Cache_LFU.WF {K V : Type} (c : Cache_LFU K V) : Prop where
  handles_nodup : (c.data_.map Prod.fst).Nodup
  handles_lt : ∀ n ∈ c.data_, n.1 < c.alloc_
  keys_nodup : (c.data_.map (fun n => n.2.key)).Nodup
  hash_some : ∀ k e, c.hash_table_ k = some e →
    e.counter = 0 ∧ ∃ n ∈ c.data_, n.1 = e.iter ∧ n.2.key = k
  hash_none : ∀ k, c.hash_table_ k = none → ∀ n ∈ c.data_, n.2.key ≠ k
  sel_live : ∀ r ∈ c.elem_search_set_, ∃ n ∈ c.data_, n.1 = r.iter
  sel_iter_nodup : (c.elem_search_set_.map Cache_LFU.set_elem_t.iter).Nodup
  sel_sorted : c.elem_search_set_.Pairwise (fun a b => a.counter < b.counter)
  sel_counter : ∀ r ∈ c.elem_search_set_, r.counter ≤ 1

/-- Invariant of the `Cache_LFU` states reached from a fresh cache. -/
structure Cache_LFU.Inv {K V : Type} (c : Cache_LFU K V) : Prop where
  wf : c.WF
  sel_nonempty : c.data_ ≠ [] → c.elem_search_set_ ≠ []
  size_le : c.data_.length ≤ c.size_

/-- Calls with keys `l`, all with the producer of the unit value. -/
def unit_calls {K : Type} (l : List K) : List (K × (K → Unit)) :=
  l.map (fun k => (k, fun _ => ()))

/-- The key `key` is not used again in `rest` (the keys to come, the first at position
`pos`), or every resident key is used again and none of them later than `key`. -/
def no_sooner_than_residents {K : Type} [DecidableEq K] (key : K) (rest : List K)
    (pos : Nat) (residents : List K) : Prop :=
  key ∉ rest ∨
    ∃ jk, next_use key rest pos = some jk ∧
      ∀ r ∈ residents, ∃ jr, next_use r rest pos = some jr ∧ jr ≤ jk

/-- Whether `k` is used again at a position up to `t`, in the keys `rest` to come (the
first of them at position `pos`). -/
def used_by {K : Type} [DecidableEq K] (k : K) (rest : List K) (pos t : Nat) : Bool :=
  match next_use k rest pos with
  | some j => decide (j ≤ t)
  | none => false

/-- Potential of the exchange argument: for every horizon `t`, the hits `hA` counted so
far for the resident set `SA` plus the number of its keys used again by `t` do not
exceed the same sum for `hB` and `SB`. -/
def dominates {K : Type} [DecidableEq K] (pos : Nat) (rest : List K) (hA : Nat)
    (SA : Finset K) (hB : Nat) (SB : Finset K) : Prop :=
  ∀ t, hA + (SA.filter (fun k => used_by k rest pos t = true)).card
    ≤ hB + (SB.filter (fun k => used_by k rest pos t = true)).card

/-- All positions `i` (0-based) with `key_seq[i] = k`, in ascending order. -/
def all_positions {K : Type} [DecidableEq K] (k : K) (key_seq : List K) : List Nat :=
  (List.range key_seq.length).filter (fun i => decide (key_seq[i]? = some k))

/-- The position `j` is the smallest one at or after `i` at which `k` occurs in `key_seq`. -/
def is_next_occurrence {K : Type} (key_seq : List K) (i : Nat) (k : K) (j : Nat) : Prop :=
  i ≤ j ∧ key_seq[j]? = some k ∧ ∀ j', i ≤ j' → j' < j → key_seq[j']? ≠ some k

/-- The key `k` occurs at no position of `key_seq` at or after `i`. -/
def no_occurrence_from {K : Type} (key_seq : List K) (i : Nat) (k : K) : Prop :=
  ∀ j, i ≤ j → key_seq[j]? ≠ some k

/-! ## Lists, sets and handles -/

section

variable {K V : Type}

theorem mem_list_erase {data : list K V} {it : data_it} {n : data_it × data_elem_t K V} :
    n ∈ list_erase data it ↔ n ∈ data ∧ n.1 ≠ it := by
  simp [list_erase]

theorem deref_of_mem {data : list K V} {it : data_it}
    (h : ∃ n ∈ data, n.1 = it) : ∃ e, deref data it = some e ∧ (it, e) ∈ data := by
  induction data with
  | nil => simp at h
  | cons a rest ih =>
    by_cases ha : a.1 = it
    · refine ⟨a.2, ?_, ?_⟩
      · simp [deref, List.find?, ha]
      · rw [← ha]; simp
    · have h2 : ∃ n ∈ rest, n.1 = it := by
        obtain ⟨n, hn, hn2⟩ := h
        rcases List.mem_cons.1 hn with rfl | hn
        · exact absurd hn2 ha
        · exact ⟨n, hn, hn2⟩
      obtain ⟨e, he, hmem⟩ := ih h2
      refine ⟨e, ?_, List.mem_cons_of_mem _ hmem⟩
      have hb : (a.1 == it) = false := beq_false_of_ne ha
      simpa [deref, List.find?, hb] using he

theorem deref_mem {data : list K V} {it : data_it} {e : data_elem_t K V}
    (h : deref data it = some e) : (it, e) ∈ data := by
  induction data with
  | nil => simp [deref] at h
  | cons a rest ih =>
    by_cases ha : a.1 = it
    · simp [deref, List.find?, ha] at h
      rw [← ha, ← h]; simp
    · apply List.mem_cons_of_mem
      apply ih
      have hb : (a.1 == it) = false := beq_false_of_ne ha
      simpa [deref, List.find?, hb] using h

theorem list_erase_length {data : list K V} {it : data_it}
    (hnd : (data.map Prod.fst).Nodup) (h : ∃ n ∈ data, n.1 = it) :
    (list_erase data it).length + 1 = data.length := by
  induction data with
  | nil => simp at h
  | cons a rest ih =>
    have hnd2 : a.1 ∉ rest.map Prod.fst ∧ (rest.map Prod.fst).Nodup :=
      List.nodup_cons.1 hnd
    by_cases ha : a.1 = it
    · have hrest : list_erase rest it = rest := by
        apply List.filter_eq_self.2
        intro n hn
        have : n.1 ≠ it := by
          intro hc
          apply hnd2.1
          rw [ha, ← hc]
          exact List.mem_map_of_mem _ hn
        simpa using this
      have hb : (a.1 != it) = false := by simp [ha]
      have : list_erase (a :: rest) it = list_erase rest it := by
        simp only [list_erase, List.filter_cons, hb]; rfl
      rw [this, hrest]; simp
    · have h2 : ∃ n ∈ rest, n.1 = it := by
        obtain ⟨n, hn, hn2⟩ := h
        rcases List.mem_cons.1 hn with rfl | hn
        · exact absurd hn2 ha
        · exact ⟨n, hn, hn2⟩
      have hlen := ih hnd2.2 h2
      have hb : (a.1 != it) = true := by simp [ha]
      have : list_erase (a :: rest) it = a :: list_erase rest it := by
        simp only [list_erase, List.filter_cons, hb]; rfl
      rw [this]; simp [hlen]

theorem list_erase_length_le (data : list K V) (it : data_it) :
    (list_erase data it).length ≤ data.length := by
  unfold list_erase; exact List.length_filter_le _ _

theorem mem_set_erase {E : Type} {cmp : E → E → Bool} {e r : E} {s : List E} :
    r ∈ set_erase cmp e s ↔ r ∈ s ∧ (cmp r e = true ∨ cmp e r = true) := by
  simp [set_erase]

theorem set_emplace_subset {E : Type} (cmp : E → E → Bool) (e : E) (s : List E) (r : E)
    (h : r ∈ set_emplace cmp e s) : r = e ∨ r ∈ s := by
  induction s with
  | nil => simpa [set_emplace] using h
  | cons x xs ih =>
    unfold set_emplace at h
    split_ifs at h
    · simpa using h
    · rcases List.mem_cons.1 h with rfl | h
      · simp
      · rcases ih h with h | h
        · exact Or.inl h
        · exact Or.inr (List.mem_cons_of_mem _ h)
    · exact Or.inr h

theorem mem_set_emplace_of_mem {E : Type} (cmp : E → E → Bool) (e : E) (s : List E) (r : E)
    (h : r ∈ s) : r ∈ set_emplace cmp e s := by
  induction s with
  | nil => simp at h
  | cons x xs ih =>
    unfold set_emplace
    split_ifs
    · exact List.mem_cons_of_mem _ h
    · rcases List.mem_cons.1 h with rfl | h
      · simp
      · exact List.mem_cons_of_mem _ (ih h)
    · exact h

theorem mem_set_emplace_self {E : Type} (cmp : E → E → Bool) (e : E) (s : List E)
    (h : ∀ y ∈ s, cmp e y = true ∨ cmp y e = true) : e ∈ set_emplace cmp e s := by
  induction s with
  | nil => simp [set_emplace]
  | cons x xs ih =>
    unfold set_emplace
    split_ifs with h1 h2
    · simp
    · exact List.mem_cons_of_mem _ (ih (fun y hy => h y (List.mem_cons_of_mem _ hy)))
    · rcases h x (by simp) with h | h
      · exact absurd h h1
      · exact absurd h h2

theorem set_emplace_ne_nil {E : Type} (cmp : E → E → Bool) (e : E) (s : List E) :
    set_emplace cmp e s ≠ [] := by
  cases s with
  | nil => simp [set_emplace]
  | cons x xs =>
    unfold set_emplace
    split_ifs <;> simp

theorem mem_set_emplace_iff {E : Type} {cmp : E → E → Bool} {e : E} {s : List E}
    (h : ∀ y ∈ s, cmp e y = true ∨ cmp y e = true) (r : E) :
    r ∈ set_emplace cmp e s ↔ r = e ∨ r ∈ s := by
  constructor
  · exact set_emplace_subset cmp e s r
  · rintro (rfl | hr)
    · exact mem_set_emplace_self cmp r s h
    · exact mem_set_emplace_of_mem cmp e s r hr

theorem handle_unique {data : list K V} (hnd : (data.map Prod.fst).Nodup)
    {n m : data_it × data_elem_t K V} (hn : n ∈ data) (hm : m ∈ data) (h : n.1 = m.1) :
    n = m :=
  List.inj_on_of_nodup_map hnd hn hm h

theorem key_unique {data : list K V} (hnd : (data.map (fun n => n.2.key)).Nodup)
    {n m : data_it × data_elem_t K V} (hn : n ∈ data) (hm : m ∈ data)
    (h : n.2.key = m.2.key) : n = m :=
  List.inj_on_of_nodup_map hnd hn hm h

theorem list_erase_handles_nodup {data : list K V} (it : data_it)
    (hnd : (data.map Prod.fst).Nodup) : ((list_erase data it).map Prod.fst).Nodup :=
  List.Nodup.sublist (List.Sublist.map _ (List.filter_sublist _)) hnd

theorem list_erase_keys_nodup {data : list K V} (it : data_it)
    (hnd : (data.map (fun n => n.2.key)).Nodup) :
    ((list_erase data it).map (fun n => n.2.key)).Nodup :=
  List.Nodup.sublist (List.Sublist.map _ (List.filter_sublist _)) hnd

/-- Shapes of a selector whose counters are distinct and at most one. -/
theorem lfu_set_shape {s : List Cache_LFU.set_elem_t}
    (hs : s.Pairwise (fun a b => a.counter < b.counter))
    (hc : ∀ r ∈ s, r.counter ≤ 1) :
    s = [] ∨ (∃ a, s = [⟨a, 0⟩]) ∨ (∃ a, s = [⟨a, 1⟩]) ∨ (∃ a b, s = [⟨a, 0⟩, ⟨b, 1⟩]) := by
  match s, hs, hc with
  | [], _, _ => simp
  | [⟨a, ca⟩], _, hc =>
    have := hc ⟨a, ca⟩ (by simp)
    have h01 : ca = 0 ∨ ca = 1 := by simp at this; omega
    rcases h01 with rfl | rfl
    · right; left; exact ⟨a, rfl⟩
    · right; right; left; exact ⟨a, rfl⟩
  | [⟨a, ca⟩, ⟨b, cb⟩], hs, hc =>
    have h1 := hc ⟨b, cb⟩ (by simp)
    have h2 : ca < cb := by
      have := List.pairwise_cons.1 hs
      exact this.1 ⟨b, cb⟩ (by simp)
    simp at h1
    have hca : ca = 0 := by omega
    have hcb : cb = 1 := by omega
    subst hca; subst hcb
    right; right; right; exact ⟨a, b, rfl⟩
  | x :: y :: z :: rest, hs, hc =>
    exfalso
    have h1 := hc z (by simp)
    have hp := List.pairwise_cons.1 hs
    have hxy := hp.1 y (by simp)
    have hyz := (List.pairwise_cons.1 hp.2).1 z (by simp)
    omega

theorem list_erase_perm {K V : Type} {data : list K V} (hnd : (data.map Prod.fst).Nodup)
    {it : data_it} {e : data_elem_t K V} (hmem : (it, e) ∈ data) :
    data.Perm ((it, e) :: list_erase data it) := by
  induction data with
  | nil => simp at hmem
  | cons a rest ih =>
    have hnd2 : a.1 ∉ rest.map Prod.fst ∧ (rest.map Prod.fst).Nodup := List.nodup_cons.1 hnd
    by_cases ha : a.1 = it
    · have hae : a = (it, e) := handle_unique hnd (List.mem_cons_self _ _) hmem ha
      have hrest : list_erase rest it = rest := by
        apply List.filter_eq_self.2
        intro n hn
        have : n.1 ≠ it := by
          intro hc
          apply hnd2.1
          rw [ha, ← hc]
          exact List.mem_map_of_mem _ hn
        simpa using this
      have hb : (a.1 != it) = false := by simp [ha]
      have : list_erase (a :: rest) it = list_erase rest it := by
        simp only [list_erase, List.filter_cons, hb]; rfl
      rw [this, hrest, hae]
    · have hmem2 : (it, e) ∈ rest := by
        rcases List.mem_cons.1 hmem with h | h
        · rw [← h] at ha; exact absurd rfl ha
        · exact h
      have hb : (a.1 != it) = true := by simp [ha]
      have : list_erase (a :: rest) it = a :: list_erase rest it := by
        simp only [list_erase, List.filter_cons, hb]; rfl
      rw [this]
      exact (List.Perm.cons a (ih hnd2.2 hmem2)).trans (List.Perm.swap _ _ _)

end

/-! ## Trace positions -/

section

variable {K : Type} [DecidableEq K]

theorem positions_ge (k : K) (l : List K) (i j : Nat) (h : j ∈ positions k l i) : i ≤ j := by
  induction l generalizing i with
  | nil => simp [positions] at h
  | cons x rest ih =>
    unfold positions at h
    split_ifs at h
    · rcases List.mem_cons.1 h with rfl | h
      · exact Nat.le_refl _
      · exact Nat.le_of_succ_le (ih _ h)
    · exact Nat.le_of_succ_le (ih _ h)

theorem next_use_cons (k x : K) (rest : List K) (i : Nat) :
    next_use k (x :: rest) i = if x = k then some i else next_use k rest (i + 1) := by
  by_cases hx : x = k
  · simp [next_use, positions, hx]
  · simp [next_use, positions, hx]

theorem next_use_cons_self (x : K) (rest : List K) (i : Nat) :
    next_use x (x :: rest) i = some i := by
  simp [next_use_cons]

theorem next_use_cons_ne {k x : K} (h : x ≠ k) (rest : List K) (i : Nat) :
    next_use k (x :: rest) i = next_use k rest (i + 1) := by
  simp [next_use_cons, h]

theorem next_use_ge {k : K} {l : List K} {i j : Nat} (h : next_use k l i = some j) : i ≤ j := by
  apply positions_ge k l i j
  unfold next_use at h
  exact List.mem_of_mem_head? h

theorem next_use_eq_none {k : K} {l : List K} {i : Nat} : next_use k l i = none ↔ k ∉ l := by
  induction l generalizing i with
  | nil => simp [next_use, positions]
  | cons x rest ih =>
    rw [next_use_cons]
    by_cases hx : x = k
    · simp [hx]
    · simp only [hx, if_false, List.mem_cons, not_or]
      rw [ih]
      constructor
      · intro h; exact ⟨fun hc => hx hc.symm, h⟩
      · intro h; exact h.2

theorem next_use_isSome {k : K} {l : List K} {i : Nat} (h : k ∈ l) :
    ∃ j, next_use k l i = some j := by
  cases hn : next_use k l i with
  | none => exact absurd h (next_use_eq_none.1 hn)
  | some j => exact ⟨j, rfl⟩

theorem next_use_inj {k k' : K} {l : List K} {i j : Nat} (h : next_use k l i = some j)
    (h' : next_use k' l i = some j) : k = k' := by
  induction l generalizing i with
  | nil => simp [next_use, positions] at h
  | cons x rest ih =>
    rw [next_use_cons] at h h'
    by_cases hx : x = k
    · by_cases hx' : x = k'
      · rw [← hx, ← hx']
      · simp only [hx, if_true, Option.some.injEq] at h
        simp only [hx', if_false] at h'
        have := next_use_ge h'
        omega
    · by_cases hx' : x = k'
      · simp only [hx', if_true, Option.some.injEq] at h'
        simp only [hx, if_false] at h
        have := next_use_ge h
        omega
      · simp only [hx, if_false] at h
        simp only [hx', if_false] at h'
        exact ih h h'

theorem next_use_eq_pos {k x : K} {rest : List K} {i : Nat}
    (h : next_use k (x :: rest) i = some i) : k = x := by
  exact next_use_inj h (next_use_cons_self x rest i)

theorem positions_cons_self (x : K) (rest : List K) (i : Nat) :
    positions x (x :: rest) i = i :: positions x rest (i + 1) := by
  simp [positions]

theorem positions_cons_ne {k x : K} (h : x ≠ k) (rest : List K) (i : Nat) :
    positions k (x :: rest) i = positions k rest (i + 1) := by
  simp [positions, h]

end

/-! ## Cache_LFU: the invariant is kept -/

namespace Cache_LFU

variable {K V : Type} [DecidableEq K]

theorem lfu_new_inv (size : Nat) : (new size : Cache_LFU K V).Inv := by
  refine ⟨⟨?_, ?_, ?_, ?_, ?_, ?_, ?_, ?_, ?_⟩, ?_, ?_⟩ <;> simp [new]

theorem update_element_counter_set {s : List set_elem_t}
    (hs : s.Pairwise (fun a b => a.counter < b.counter))
    (hc : ∀ r ∈ s, r.counter ≤ 1) (it : data_it) :
    set_emplace set_elem_cmp ⟨it, 0 + 1⟩ (set_erase set_elem_cmp ⟨it, 0⟩ s) = [⟨it, 1⟩] ∨
    ∃ a, set_emplace set_elem_cmp ⟨it, 0 + 1⟩ (set_erase set_elem_cmp ⟨it, 0⟩ s) = [⟨a, 1⟩]
      ∧ (⟨a, 1⟩ : set_elem_t) ∈ s := by
  rcases lfu_set_shape hs hc with h | ⟨a, h⟩ | ⟨a, h⟩ | ⟨a, b, h⟩
  · left; subst h; simp [set_erase, set_emplace]
  · left; subst h; simp [set_erase, set_emplace, set_elem_cmp]
  · right; subst h; exact ⟨a, by simp [set_erase, set_emplace, set_elem_cmp], by simp⟩
  · right; subst h; exact ⟨b, by simp [set_erase, set_emplace, set_elem_cmp], by simp⟩

theorem update_element_counter_wf {c : Cache_LFU K V} (h : c.WF) {hit : set_elem_t}
    (hlive : ∃ n ∈ c.data_, n.1 = hit.iter) (hc : hit.counter = 0) :
    (c.update_element_counter hit).WF ∧ (c.update_element_counter hit).elem_search_set_ ≠ [] := by
  obtain ⟨it, ct⟩ := hit
  simp only at hc hlive
  subst hc
  have hset := update_element_counter_set h.sel_sorted h.sel_counter it
  have hl := h.sel_live
  unfold update_element_counter
  rcases hset with hs | ⟨a, hs, ha⟩
  · refine ⟨⟨h.handles_nodup, h.handles_lt, h.keys_nodup, h.hash_some, h.hash_none,
      ?_, ?_, ?_, ?_⟩, ?_⟩
    · intro r hr
      simp only [hs, List.mem_singleton] at hr
      subst hr; exact hlive
    · simp only [hs]; simp
    · simp only [hs]; simp
    · intro r hr
      simp only [hs, List.mem_singleton] at hr
      subst hr; simp
    · simp only [hs]; simp
  · refine ⟨⟨h.handles_nodup, h.handles_lt, h.keys_nodup, h.hash_some, h.hash_none,
      ?_, ?_, ?_, ?_⟩, ?_⟩
    · intro r hr
      simp only [hs, List.mem_singleton] at hr
      subst hr; exact hl _ ha
    · simp only [hs]; simp
    · simp only [hs]; simp
    · intro r hr
      simp only [hs, List.mem_singleton] at hr
      subst hr; simp
    · simp only [hs]; simp

theorem insert_element_set {s : List set_elem_t}
    (hs : s.Pairwise (fun a b => a.counter < b.counter))
    (hc : ∀ r ∈ s, r.counter ≤ 1) (it : data_it) :
    (set_emplace set_elem_cmp ⟨it, 0⟩ s = s ∧ s ≠ []) ∨
    (set_emplace set_elem_cmp ⟨it, 0⟩ s = ⟨it, 0⟩ :: s ∧ ∀ r ∈ s, 0 < r.counter) := by
  rcases lfu_set_shape hs hc with h | ⟨a, h⟩ | ⟨a, h⟩ | ⟨a, b, h⟩
  · right; subst h; simp [set_emplace]
  · left; subst h; simp [set_emplace, set_elem_cmp]
  · right; subst h; simp [set_emplace, set_elem_cmp]
  · left; subst h; simp [set_emplace, set_elem_cmp]

theorem insert_element_wf {c : Cache_LFU K V} (h : c.WF) (key : K) (F : K → V)
    (hk : c.hash_table_ key = none) :
    (c.insert_element key F).WF ∧ (c.insert_element key F).elem_search_set_ ≠ [] := by
  have hset := insert_element_set h.sel_sorted h.sel_counter c.alloc_
  have hfresh : ∀ n ∈ c.data_, n.1 ≠ c.alloc_ := fun n hn => Nat.ne_of_lt (h.handles_lt n hn)
  have hmap : map_emplace c.hash_table_ key ⟨c.alloc_, 0⟩ =
      Function.update c.hash_table_ key (some ⟨c.alloc_, 0⟩) := by
    simp [map_emplace, hk]
  have hbase : (∀ n ∈ (c.insert_element key F).data_, n.1 < (c.insert_element key F).alloc_) ∧
      ((c.insert_element key F).data_.map Prod.fst).Nodup ∧
      ((c.insert_element key F).data_.map (fun n => n.2.key)).Nodup ∧
      (∀ k e, (c.insert_element key F).hash_table_ k = some e →
        e.counter = 0 ∧ ∃ n ∈ (c.insert_element key F).data_, n.1 = e.iter ∧ n.2.key = k) ∧
      (∀ k, (c.insert_element key F).hash_table_ k = none →
        ∀ n ∈ (c.insert_element key F).data_, n.2.key ≠ k) := by
    simp only [insert_element, hmap]
    refine ⟨?_, ?_, ?_, ?_, ?_⟩
    · intro n hn
      rcases List.mem_cons.1 hn with rfl | hn
      · simp
      · exact Nat.lt_succ_of_lt (h.handles_lt n hn)
    · rw [List.map_cons, List.nodup_cons]
      refine ⟨?_, h.handles_nodup⟩
      intro hmem
      obtain ⟨n, hn, hn2⟩ := List.mem_map.1 hmem
      exact hfresh n hn hn2
    · rw [List.map_cons, List.nodup_cons]
      refine ⟨?_, h.keys_nodup⟩
      intro hmem
      obtain ⟨n, hn, hn2⟩ := List.mem_map.1 hmem
      exact h.hash_none key hk n hn hn2
    · intro k e he
      by_cases hkk : k = key
      · subst hkk
        simp only [Function.update_same, Option.some.injEq] at he
        subst he
        exact ⟨rfl, _, List.mem_cons_self _ _, rfl, rfl⟩
      · rw [Function.update_noteq hkk] at he
        obtain ⟨h0, n, hn, hn1, hn2⟩ := h.hash_some k e he
        exact ⟨h0, n, List.mem_cons_of_mem _ hn, hn1, hn2⟩
    · intro k hnone n hn
      by_cases hkk : k = key
      · subst hkk
        simp at hnone
      · rw [Function.update_noteq hkk] at hnone
        rcases List.mem_cons.1 hn with rfl | hn
        · exact fun hc => hkk hc.symm
        · exact h.hash_none k hnone n hn
  obtain ⟨hb1, hb2, hb3, hb4, hb5⟩ := hbase
  have hsel : (∀ r ∈ (c.insert_element key F).elem_search_set_,
        ∃ n ∈ (c.insert_element key F).data_, n.1 = r.iter) ∧
      ((c.insert_element key F).elem_search_set_.map set_elem_t.iter).Nodup ∧
      (c.insert_element key F).elem_search_set_.Pairwise (fun a b => a.counter < b.counter) ∧
      (∀ r ∈ (c.insert_element key F).elem_search_set_, r.counter ≤ 1) ∧
      (c.insert_element key F).elem_search_set_ ≠ [] := by
    simp only [insert_element]
    rcases hset with ⟨hs, hne⟩ | ⟨hs, hpos⟩
    · rw [hs]
      refine ⟨?_, h.sel_iter_nodup, h.sel_sorted, h.sel_counter, hne⟩
      intro r hr
      obtain ⟨n, hn, hn1⟩ := h.sel_live r hr
      exact ⟨n, List.mem_cons_of_mem _ hn, hn1⟩
    · rw [hs]
      refine ⟨?_, ?_, ?_, ?_, by simp⟩
      · intro r hr
        rcases List.mem_cons.1 hr with rfl | hr
        · exact ⟨_, List.mem_cons_self _ _, rfl⟩
        · obtain ⟨n, hn, hn1⟩ := h.sel_live r hr
          exact ⟨n, List.mem_cons_of_mem _ hn, hn1⟩
      · rw [List.map_cons, List.nodup_cons]
        refine ⟨?_, h.sel_iter_nodup⟩
        intro hmem
        obtain ⟨r, hr, hr2⟩ := List.mem_map.1 hmem
        obtain ⟨n, hn, hn1⟩ := h.sel_live r hr
        exact hfresh n hn (hn1.trans hr2)
      · rw [List.pairwise_cons]
        exact ⟨fun r hr => hpos r hr, h.sel_sorted⟩
      · intro r hr
        rcases List.mem_cons.1 hr with rfl | hr
        · simp
        · exact h.sel_counter r hr
  obtain ⟨hs1, hs2, hs3, hs4, hs5⟩ := hsel
  exact ⟨⟨hb2, hb1, hb3, hb4, hb5, hs1, hs2, hs3, hs4⟩, hs5⟩

theorem erase_element_wf {c : Cache_LFU K V} (h : c.WF) {rec : set_elem_t}
    {rest : List set_elem_t} (hs : c.elem_search_set_ = rec :: rest) :
    ∃ c1, c.erase_element 0 = some c1 ∧ c1.WF ∧ c1.data_ = list_erase c.data_ rec.iter ∧
      c1.size_ = c.size_ ∧ c1.alloc_ = c.alloc_ ∧ (∃ n ∈ c.data_, n.1 = rec.iter) ∧
      (∀ k, c.hash_table_ k = none → c1.hash_table_ k = none) := by
  have hlive := h.sel_live rec (by rw [hs]; simp)
  obtain ⟨node, hderef, hmem⟩ := deref_of_mem hlive
  refine ⟨{ c with
      elem_search_set_ := c.elem_search_set_.eraseIdx 0
      hash_table_ := map_erase c.hash_table_ node.key
      data_ := list_erase c.data_ rec.iter }, by simp [erase_element, hs, hderef],
    ?_, rfl, rfl, rfl, hlive, ?_⟩
  · refine ⟨?_, ?_, ?_, ?_, ?_, ?_, ?_, ?_, ?_⟩
    · exact list_erase_handles_nodup _ h.handles_nodup
    · intro n hn
      exact h.handles_lt n (mem_list_erase.1 hn).1
    · exact list_erase_keys_nodup _ h.keys_nodup
    · intro k e he
      simp only [map_erase] at he
      by_cases hkk : k = node.key
      · subst hkk; simp at he
      · rw [Function.update_noteq hkk] at he
        obtain ⟨h0, n, hn, hn1, hn2⟩ := h.hash_some k e he
        refine ⟨h0, n, mem_list_erase.2 ⟨hn, ?_⟩, hn1, hn2⟩
        intro hc
        have : n = (rec.iter, node) := handle_unique h.handles_nodup hn hmem hc
        apply hkk
        rw [← hn2, this]
    · intro k hnone n hn hkey
      obtain ⟨hn1, hn2⟩ := mem_list_erase.1 hn
      simp only [map_erase] at hnone
      by_cases hkk : k = node.key
      · subst hkk
        have : n = (rec.iter, node) := key_unique h.keys_nodup hn1 hmem hkey
        apply hn2
        rw [this]
      · rw [Function.update_noteq hkk] at hnone
        exact h.hash_none k hnone n hn1 hkey
    · intro r hr
      simp only [hs, List.eraseIdx_cons_zero] at hr
      obtain ⟨n, hn, hn1⟩ := h.sel_live r (by rw [hs]; exact List.mem_cons_of_mem _ hr)
      refine ⟨n, mem_list_erase.2 ⟨hn, ?_⟩, hn1⟩
      intro hc
      have hnd := h.sel_iter_nodup
      rw [hs, List.map_cons, List.nodup_cons] at hnd
      apply hnd.1
      rw [← hc, hn1]
      exact List.mem_map_of_mem _ hr
    · have hnd := h.sel_iter_nodup
      rw [hs, List.map_cons, List.nodup_cons] at hnd
      simpa [hs] using hnd.2
    · have hp := h.sel_sorted
      rw [hs, List.pairwise_cons] at hp
      simpa [hs] using hp.2
    · intro r hr
      simp only [hs, List.eraseIdx_cons_zero] at hr
      exact h.sel_counter r (by rw [hs]; exact List.mem_cons_of_mem _ hr)
  · intro k hk
    simp only [map_erase]
    by_cases hkk : k = node.key
    · subst hkk; simp
    · rw [Function.update_noteq hkk]; exact hk

theorem lfu_mem_keys {c : Cache_LFU K V} {k : K} : k ∈ c.keys ↔ ∃ n ∈ c.data_, n.2.key = k := by
  simp [keys]

theorem lfu_hash_isSome_iff {c : Cache_LFU K V} (h : c.WF) (k : K) :
    (c.hash_table_ k).isSome = true ↔ k ∈ c.keys := by
  rw [lfu_mem_keys]
  constructor
  · intro hs
    obtain ⟨e, he⟩ := Option.isSome_iff_exists.1 hs
    obtain ⟨_, n, hn, _, hn2⟩ := h.hash_some k e he
    exact ⟨n, hn, hn2⟩
  · rintro ⟨n, hn, hn2⟩
    cases hk : c.hash_table_ k with
    | none => exact absurd hn2 (h.hash_none k hk n hn)
    | some e => rfl

/-- One call of `lookup_update` from a state satisfying the invariant: it returns, the
invariant is kept, and the entry store changes as described. -/
theorem lfu_lookup_update_spec {c : Cache_LFU K V} (h : c.Inv) (key : K) (F : K → V) :
    ∃ b c', c.lookup_update key F = some (b, c') ∧ c'.Inv ∧ c'.size_ = c.size_ ∧
      (b = true ↔ key ∈ c.keys) ∧
      (b = true → c'.data_ = c.data_) ∧
      (b = false → c.size_ = 0 → c' = c) ∧
      (b = false → c.size_ ≠ 0 → c.data_.length ≠ c.size_ →
        c'.data_ = (c.alloc_, ⟨key, F key⟩) :: c.data_) ∧
      (b = false → c.size_ ≠ 0 → c.data_.length = c.size_ →
        ∃ rec, c.elem_search_set_.head? = some rec ∧ (∃ n ∈ c.data_, n.1 = rec.iter) ∧
          c'.data_ = (c.alloc_, ⟨key, F key⟩) :: list_erase c.data_ rec.iter) := by
  cases hk : c.hash_table_ key with
  | some hit =>
    obtain ⟨h0, n, hn, hn1, hn2⟩ := h.wf.hash_some key hit hk
    obtain ⟨hwf, hne⟩ := update_element_counter_wf h.wf ⟨n, hn, hn1⟩ h0
    refine ⟨true, c.update_element_counter hit, by simp [lookup_update, hk],
      ⟨hwf, fun _ => hne, h.size_le⟩, rfl, ?_, fun _ => rfl, ?_, ?_, ?_⟩
    · simp only [true_iff]
      exact lfu_mem_keys.2 ⟨n, hn, hn2⟩
    all_goals intro hb; simp at hb
  | none =>
    have hnotin : key ∉ c.keys := by
      rw [← lfu_hash_isSome_iff h.wf, hk]; simp
    by_cases hz : c.size_ = 0
    · refine ⟨false, c, by simp [lookup_update, hk, hz], h, rfl, ?_, ?_, fun _ _ => rfl, ?_, ?_⟩
      · simp [hnotin]
      · intro hb; simp at hb
      · intro _ hc; exact absurd hz hc
      · intro _ hc; exact absurd hz hc
    · by_cases hfull : c.data_.length = c.size_
      · have hdne : c.data_ ≠ [] := by
          intro hnil; rw [hnil] at hfull; exact hz hfull.symm
        obtain ⟨rec, rest, hs⟩ := List.exists_cons_of_ne_nil (h.sel_nonempty hdne)
        obtain ⟨c1, he, hwf1, hd1, hsz1, hal1, hlive, hnone1⟩ := erase_element_wf h.wf hs
        obtain ⟨hwf2, hne2⟩ := insert_element_wf hwf1 key F (hnone1 key hk)
        have hlen := list_erase_length h.wf.handles_nodup hlive
        refine ⟨false, c1.insert_element key F, ?_, ⟨hwf2, fun _ => hne2, ?_⟩, ?_, ?_, ?_, ?_,
          ?_, ?_⟩
        · simp [lookup_update, hk, hz, full, hfull, he]
        · simp only [insert_element, List.length_cons, hd1, hsz1]
          omega
        · simp [insert_element, hsz1]
        · simp [hnotin]
        · intro hb; simp at hb
        · intro _ hc; exact absurd hc hz
        · intro _ _ hc; exact absurd hfull hc
        · intro _ _ _
          refine ⟨rec, by simp [hs], hlive, ?_⟩
          simp [insert_element, hd1, hal1]
      · obtain ⟨hwf2, hne2⟩ := insert_element_wf h.wf key F hk
        refine ⟨false, c.insert_element key F, ?_, ⟨hwf2, fun _ => hne2, ?_⟩, rfl, ?_, ?_, ?_,
          ?_, ?_⟩
        · simp [lookup_update, hk, hz, full, hfull]
        · simp only [insert_element, List.length_cons]
          have := h.size_le
          omega
        · simp [hnotin]
        · intro hb; simp at hb
        · intro _ hc; exact absurd hc hz
        · intro _ _ _; rfl
        · intro _ _ hc; exact absurd hc hfull

/-- Any sequence of calls from a state satisfying the invariant returns and keeps it. -/
theorem lfu_replay_spec (calls : List (K × (K → V))) {c : Cache_LFU K V} (h : c.Inv) :
    ∃ hits c', c.replay calls = some (hits, c') ∧ c'.Inv ∧ c'.size_ = c.size_ := by
  induction calls generalizing c with
  | nil => exact ⟨[], c, rfl, h, rfl⟩
  | cons call rest ih =>
    obtain ⟨key, F⟩ := call
    obtain ⟨b, c1, h1, hinv1, hsz1, -⟩ := lfu_lookup_update_spec h key F
    obtain ⟨hits, c2, h2, hinv2, hsz2⟩ := ih hinv1
    exact ⟨b :: hits, c2, by simp [replay, h1, h2], hinv2, hsz2.trans hsz1⟩

end Cache_LFU

/-! ## Cache_PCA: the invariant is kept -/

namespace Cache_PCA

variable {K V : Type} [DecidableEq K]

theorem set_emplace_sorted (e : set_elem_t) (s : List set_elem_t)
    (hs : s.Pairwise (fun a b => a.index > b.index)) :
    (set_emplace set_elem_cmp e s).Pairwise (fun a b => a.index > b.index) := by
  induction s with
  | nil => simp [set_emplace]
  | cons x xs ih =>
    have hp := List.pairwise_cons.1 hs
    unfold set_emplace
    split_ifs with h1 h2
    · rw [List.pairwise_cons]
      refine ⟨?_, hs⟩
      intro r hr
      have h1 : e.index > x.index := by simpa [set_elem_cmp] using h1
      rcases List.mem_cons.1 hr with rfl | hr
      · exact h1
      · have := hp.1 r hr
        omega
    · rw [List.pairwise_cons]
      refine ⟨?_, ih hp.2⟩
      intro r hr
      have h2 : x.index > e.index := by simpa [set_elem_cmp] using h2
      rcases set_emplace_subset _ _ _ _ hr with rfl | hr
      · exact h2
      · exact hp.1 r hr
    · exact hs

theorem cmp_iff_ne (a b : set_elem_t) :
    (set_elem_cmp a b = true ∨ set_elem_cmp b a = true) ↔ a.index ≠ b.index := by
  simp only [set_elem_cmp, decide_eq_true_eq]
  omega

theorem aux_congr {i : Nat} {post : List K} {data data' : list K V}
    {sel : List set_elem_t} {red : List data_it}
    (h : AuxInv i post data sel red) (hd : ∀ n, n ∈ data ↔ n ∈ data') :
    AuxInv i post data' sel red := by
  refine ⟨?_, ?_, h.sel_sorted, h.red_nodup⟩
  · intro r
    rw [h.sel_mem r]
    constructor <;> rintro ⟨n, hn, h1⟩
    · exact ⟨n, (hd n).1 hn, h1⟩
    · exact ⟨n, (hd n).2 hn, h1⟩
  · intro it
    rw [h.red_mem it]
    constructor <;> rintro ⟨n, hn, h1⟩
    · exact ⟨n, (hd n).1 hn, h1⟩
    · exact ⟨n, (hd n).2 hn, h1⟩

theorem aux_advance {i : Nat} {x : K} {post : List K} {data : list K V}
    {sel : List set_elem_t} {red : List data_it}
    (h : AuxInv i (x :: post) data sel red) (hx : ∀ n ∈ data, n.2.key ≠ x) :
    AuxInv (i + 1) post data sel red := by
  refine ⟨?_, ?_, h.sel_sorted, h.red_nodup⟩
  · intro r
    rw [h.sel_mem r]
    constructor <;> rintro ⟨n, hn, h1, h2⟩
    · exact ⟨n, hn, h1, by rwa [next_use_cons_ne (fun hc => hx n hn hc.symm)] at h2⟩
    · exact ⟨n, hn, h1, by rwa [next_use_cons_ne (fun hc => hx n hn hc.symm)]⟩
  · intro it
    rw [h.red_mem it]
    constructor <;> rintro ⟨n, hn, h1, h2⟩
    · exact ⟨n, hn, h1, by rwa [next_use_cons_ne (fun hc => hx n hn hc.symm)] at h2⟩
    · exact ⟨n, hn, h1, by rwa [next_use_cons_ne (fun hc => hx n hn hc.symm)]⟩

theorem aux_erase_red {i : Nat} {post : List K} {data : list K V}
    {sel : List set_elem_t} {red : List data_it} {it : data_it}
    (h : AuxInv i post data sel (it :: red)) (hnd : (data.map Prod.fst).Nodup) :
    AuxInv i post (list_erase data it) sel red := by
  obtain ⟨m, hm, hm1, hm2⟩ := (h.red_mem it).1 (List.mem_cons_self _ _)
  have hnd2 := List.nodup_cons.1 h.red_nodup
  refine ⟨?_, ?_, h.sel_sorted, hnd2.2⟩
  · intro r
    rw [h.sel_mem r]
    constructor
    · rintro ⟨n, hn, h1, h2⟩
      refine ⟨n, mem_list_erase.2 ⟨hn, ?_⟩, h1, h2⟩
      intro hc
      have : n = m := handle_unique hnd hn hm (hc.trans hm1.symm)
      rw [this, hm2] at h2
      simp at h2
    · rintro ⟨n, hn, h1, h2⟩
      exact ⟨n, (mem_list_erase.1 hn).1, h1, h2⟩
  · intro it'
    constructor
    · intro hr
      obtain ⟨n, hn, h1, h2⟩ := (h.red_mem it').1 (List.mem_cons_of_mem _ hr)
      refine ⟨n, mem_list_erase.2 ⟨hn, ?_⟩, h1, h2⟩
      intro hc
      apply hnd2.1
      rw [← hc, h1]
      exact hr
    · rintro ⟨n, hn, h1, h2⟩
      obtain ⟨hn1, hn2⟩ := mem_list_erase.1 hn
      rcases List.mem_cons.1 ((h.red_mem it').2 ⟨n, hn1, h1, h2⟩) with hc | hc
      · exact absurd (h1.trans hc) hn2
      · exact hc

theorem aux_erase_far {i : Nat} {post : List K} {data : list K V}
    {sel : List set_elem_t} {red : List data_it} {far : set_elem_t}
    (h : AuxInv i post data (far :: sel) red) (hnd : (data.map Prod.fst).Nodup) :
    AuxInv i post (list_erase data far.iter) sel red := by
  obtain ⟨m, hm, hm1, hm2⟩ := (h.sel_mem far).1 (List.mem_cons_self _ _)
  have hp := List.pairwise_cons.1 h.sel_sorted
  refine ⟨?_, ?_, hp.2, h.red_nodup⟩
  · intro r
    constructor
    · intro hr
      obtain ⟨n, hn, h1, h2⟩ := (h.sel_mem r).1 (List.mem_cons_of_mem _ hr)
      refine ⟨n, mem_list_erase.2 ⟨hn, ?_⟩, h1, h2⟩
      intro hc
      have : n = m := handle_unique hnd hn hm (hc.trans hm1.symm)
      rw [this, hm2] at h2
      have := hp.1 r hr
      simp only [Option.some.injEq] at h2
      omega
    · rintro ⟨n, hn, h1, h2⟩
      obtain ⟨hn1, hn2⟩ := mem_list_erase.1 hn
      rcases List.mem_cons.1 ((h.sel_mem r).2 ⟨n, hn1, h1, h2⟩) with hc | hc
      · rw [hc] at h1
        exact absurd h1 hn2
      · exact hc
  · intro it
    rw [h.red_mem it]
    constructor
    · rintro ⟨n, hn, h1, h2⟩
      refine ⟨n, mem_list_erase.2 ⟨hn, ?_⟩, h1, h2⟩
      intro hc
      have : n = m := handle_unique hnd hn hm (hc.trans hm1.symm)
      rw [this, hm2] at h2
      simp at h2
    · rintro ⟨n, hn, h1, h2⟩
      exact ⟨n, (mem_list_erase.1 hn).1, h1, h2⟩

theorem aux_insert_sel {i : Nat} {post : List K} {data : list K V}
    {sel : List set_elem_t} {red : List data_it} (h : AuxInv i post data sel red)
    {a : data_it} {e : data_elem_t K V}
    (hk : ∀ n ∈ data, n.2.key ≠ e.key) {j : Nat} (hj : next_use e.key post i = some j) :
    AuxInv i post ((a, e) :: data) (set_emplace set_elem_cmp ⟨a, j⟩ sel) red := by
  have hne : ∀ y ∈ sel, set_elem_cmp ⟨a, j⟩ y = true ∨ set_elem_cmp y ⟨a, j⟩ = true := by
    intro y hy
    rw [cmp_iff_ne]
    obtain ⟨n, hn, _, h2⟩ := (h.sel_mem y).1 hy
    intro hc
    simp only at hc
    rw [← hc] at h2
    exact hk n hn (next_use_inj h2 hj)
  refine ⟨?_, ?_, set_emplace_sorted _ _ h.sel_sorted, h.red_nodup⟩
  · intro r
    rw [mem_set_emplace_iff hne r]
    constructor
    · rintro (rfl | hr)
      · exact ⟨(a, e), List.mem_cons_self _ _, rfl, hj⟩
      · obtain ⟨n, hn, h1, h2⟩ := (h.sel_mem r).1 hr
        exact ⟨n, List.mem_cons_of_mem _ hn, h1, h2⟩
    · rintro ⟨n, hn, h1, h2⟩
      rcases List.mem_cons.1 hn with rfl | hn
      · left
        simp only at h1 h2
        rw [hj] at h2
        simp only [Option.some.injEq] at h2
        cases r
        simp only at h1 h2
        rw [h1, h2]
      · right
        exact (h.sel_mem r).2 ⟨n, hn, h1, h2⟩
  · intro it
    rw [h.red_mem it]
    constructor
    · rintro ⟨n, hn, h1, h2⟩
      exact ⟨n, List.mem_cons_of_mem _ hn, h1, h2⟩
    · rintro ⟨n, hn, h1, h2⟩
      rcases List.mem_cons.1 hn with rfl | hn
      · simp only at h2
        rw [hj] at h2
        simp at h2
      · exact ⟨n, hn, h1, h2⟩

theorem aux_insert_red {i : Nat} {post : List K} {data : list K V}
    {sel : List set_elem_t} {red : List data_it} (h : AuxInv i post data sel red)
    {a : data_it} {e : data_elem_t K V} (ha : ∀ n ∈ data, n.1 ≠ a)
    (hj : next_use e.key post i = none) :
    AuxInv i post ((a, e) :: data) sel (a :: red) := by
  refine ⟨?_, ?_, h.sel_sorted, ?_⟩
  · intro r
    rw [h.sel_mem r]
    constructor
    · rintro ⟨n, hn, h1, h2⟩
      exact ⟨n, List.mem_cons_of_mem _ hn, h1, h2⟩
    · rintro ⟨n, hn, h1, h2⟩
      rcases List.mem_cons.1 hn with rfl | hn
      · simp only at h2
        rw [hj] at h2
        simp at h2
      · exact ⟨n, hn, h1, h2⟩
  · intro it
    constructor
    · intro hr
      rcases List.mem_cons.1 hr with rfl | hr
      · exact ⟨(it, e), List.mem_cons_self _ _, rfl, hj⟩
      · obtain ⟨n, hn, h1, h2⟩ := (h.red_mem it).1 hr
        exact ⟨n, List.mem_cons_of_mem _ hn, h1, h2⟩
    · rintro ⟨n, hn, h1, h2⟩
      rcases List.mem_cons.1 hn with rfl | hn
      · simp only at h1
        rw [h1]; exact List.mem_cons_self _ _
      · exact List.mem_cons_of_mem _ ((h.red_mem it).2 ⟨n, hn, h1, h2⟩)
  · rw [List.nodup_cons]
    refine ⟨?_, h.red_nodup⟩
    intro hc
    obtain ⟨n, hn, h1, _⟩ := (h.red_mem a).1 hc
    exact ha n hn h1

theorem aux_hit_erase {i : Nat} {x : K} {post : List K} {data : list K V}
    {sel : List set_elem_t} {red : List data_it}
    (h : AuxInv i (x :: post) data sel red) (hnd : (data.map Prod.fst).Nodup)
    (hkd : (data.map (fun n => n.2.key)).Nodup) {it : data_it} {e : data_elem_t K V}
    (hmem : (it, e) ∈ data) (hkey : e.key = x) :
    AuxInv (i + 1) post (list_erase data it) (set_erase set_elem_cmp ⟨it, i⟩ sel) red := by
  have hother : ∀ n ∈ data, n.1 ≠ it ↔ n.2.key ≠ x := by
    intro n hn
    constructor
    · intro h1 hc
      apply h1
      have : n = (it, e) := key_unique hkd hn hmem (hc.trans hkey.symm)
      rw [this]
    · intro h1 hc
      apply h1
      have : n = (it, e) := handle_unique hnd hn hmem hc
      rw [this]; exact hkey
  refine ⟨?_, ?_, List.Pairwise.filter _ h.sel_sorted, h.red_nodup⟩
  · intro r
    rw [mem_set_erase, cmp_iff_ne, h.sel_mem r]
    constructor
    · rintro ⟨⟨n, hn, h1, h2⟩, h3⟩
      have hk : n.2.key ≠ x := by
        intro hc
        rw [hc, next_use_cons_self] at h2
        simp only [Option.some.injEq] at h2
        exact h3 h2.symm
      refine ⟨n, mem_list_erase.2 ⟨hn, (hother n hn).2 hk⟩, h1, ?_⟩
      rwa [next_use_cons_ne (fun hc => hk hc.symm)] at h2
    · rintro ⟨n, hn, h1, h2⟩
      obtain ⟨hn1, hn2⟩ := mem_list_erase.1 hn
      have hk := (hother n hn1).1 hn2
      refine ⟨⟨n, hn1, h1, ?_⟩, ?_⟩
      · rwa [next_use_cons_ne (fun hc => hk hc.symm)]
      · have := next_use_ge h2
        simp only
        omega
  · intro it'
    rw [h.red_mem it']
    constructor
    · rintro ⟨n, hn, h1, h2⟩
      have hk : n.2.key ≠ x := by
        intro hc
        rw [hc, next_use_cons_self] at h2
        simp at h2
      refine ⟨n, mem_list_erase.2 ⟨hn, (hother n hn).2 hk⟩, h1, ?_⟩
      rwa [next_use_cons_ne (fun hc => hk hc.symm)] at h2
    · rintro ⟨n, hn, h1, h2⟩
      obtain ⟨hn1, hn2⟩ := mem_list_erase.1 hn
      have hk := (hother n hn1).1 hn2
      refine ⟨n, hn1, h1, ?_⟩
      rwa [next_use_cons_ne (fun hc => hk hc.symm)]

theorem mem_cons_list_erase {data : list K V} (hnd : (data.map Prod.fst).Nodup)
    {it : data_it} {e : data_elem_t K V} (hmem : (it, e) ∈ data)
    (n : data_it × data_elem_t K V) : n ∈ (it, e) :: list_erase data it ↔ n ∈ data := by
  rw [List.mem_cons, mem_list_erase]
  constructor
  · rintro (rfl | ⟨h, _⟩)
    · exact hmem
    · exact h
  · intro hn
    by_cases hc : n.1 = it
    · left; exact handle_unique hnd hn hmem hc
    · right; exact ⟨hn, hc⟩

theorem pca_mem_keys {c : Cache_PCA K V} {k : K} : k ∈ c.keys ↔ ∃ n ∈ c.data_, n.2.key = k := by
  simp [keys]

theorem pca_hash_isSome_iff {c : Cache_PCA K V} (h : c.StoreWF) (k : K) :
    (c.hash_table_ k).isSome = true ↔ k ∈ c.keys := by
  rw [pca_mem_keys]
  constructor
  · intro hs
    obtain ⟨e, he⟩ := Option.isSome_iff_exists.1 hs
    obtain ⟨n, hn, _, hn2⟩ := h.hash_some k e he
    exact ⟨n, hn, hn2⟩
  · rintro ⟨n, hn, hn2⟩
    cases hk : c.hash_table_ k with
    | none => exact absurd hn2 (h.hash_none k hk n hn)
    | some e => rfl

theorem get_elem_fidx_spec {c : Cache_PCA K V} {i : Nat} {x : K} {post : List K}
    (hf : ∀ k, (c.key_seq_fidx_ k).getD [] = positions k (x :: post) i) :
    ∃ fi, c.get_elem_fidx x = some (fi,
        { c with
          key_seq_fidx_ := Function.update c.key_seq_fidx_ x (some (positions x post (i + 1))) })
      ∧
      (∀ k, ((Function.update c.key_seq_fidx_ x (some (positions x post (i + 1)))) k).getD []
        = positions k post (i + 1)) ∧
      ((fi.1 = true ∧ next_use x post (i + 1) = some fi.2) ∨
        (fi = (false, 0) ∧ next_use x post (i + 1) = none)) := by
  have hx := hf x
  rw [positions_cons_self] at hx
  have hall : ∀ k, ((Function.update c.key_seq_fidx_ x (some (positions x post (i + 1)))) k).getD []
        = positions k post (i + 1) := by
    intro k
    by_cases hk : k = x
    · subst hk; simp
    · rw [Function.update_noteq hk, hf k, positions_cons_ne (fun hc => hk hc.symm)]
  cases hp : positions x post (i + 1) with
  | nil =>
    rw [hp] at hall
    refine ⟨(false, 0), ?_, hall, Or.inr ⟨rfl, by simp [next_use, hp]⟩⟩
    simp [get_elem_fidx, hx, hp]
  | cons j rest =>
    rw [hp] at hall
    refine ⟨(true, j), ?_, hall, Or.inl ⟨rfl, by simp [next_use, hp]⟩⟩
    simp [get_elem_fidx, hx, hp]

theorem erase_element_store {c : Cache_PCA K V} (h : c.StoreWF) {elim : data_it}
    (hlive : ∃ n ∈ c.data_, n.1 = elim) :
    ∃ node, (elim, node) ∈ c.data_ ∧
      c.erase_element elim = some { c with
        hash_table_ := map_erase c.hash_table_ node.key
        data_ := list_erase c.data_ elim } ∧
      StoreWF { c with
        hash_table_ := map_erase c.hash_table_ node.key
        data_ := list_erase c.data_ elim } ∧
      (∀ k, c.hash_table_ k = none → map_erase c.hash_table_ node.key k = none) := by
  obtain ⟨node, hderef, hmem⟩ := deref_of_mem hlive
  refine ⟨node, hmem, by simp [erase_element, hderef], ?_, ?_⟩
  · refine ⟨?_, ?_, ?_, ?_, ?_, ?_⟩
    · exact list_erase_handles_nodup _ h.handles_nodup
    · intro n hn
      exact h.handles_lt n (mem_list_erase.1 hn).1
    · exact list_erase_keys_nodup _ h.keys_nodup
    · intro k e he
      simp only [map_erase] at he
      by_cases hkk : k = node.key
      · subst hkk; simp at he
      · rw [Function.update_noteq hkk] at he
        obtain ⟨n, hn, hn1, hn2⟩ := h.hash_some k e he
        refine ⟨n, mem_list_erase.2 ⟨hn, ?_⟩, hn1, hn2⟩
        intro hc
        have : n = (elim, node) := handle_unique h.handles_nodup hn hmem hc
        apply hkk
        rw [← hn2, this]
    · intro k hnone n hn hkey
      obtain ⟨hn1, hn2⟩ := mem_list_erase.1 hn
      simp only [map_erase] at hnone
      by_cases hkk : k = node.key
      · subst hkk
        have : n = (elim, node) := key_unique h.keys_nodup hn1 hmem hkey
        apply hn2
        rw [this]
      · rw [Function.update_noteq hkk] at hnone
        exact h.hash_none k hnone n hn1 hkey
    · exact Nat.le_trans (list_erase_length_le _ _) h.size_le
  · intro k hk
    simp only [map_erase]
    by_cases hkk : k = node.key
    · subst hkk; simp
    · rw [Function.update_noteq hkk]; exact hk

theorem insert_element_store {c : Cache_PCA K V} (h : c.StoreWF) (key : K) (F : K → V)
    (hk : c.hash_table_ key = none) (hlen : c.data_.length < c.size_) :
    (c.insert_element key F).StoreWF := by
  have hfresh : ∀ n ∈ c.data_, n.1 ≠ c.alloc_ := fun n hn => Nat.ne_of_lt (h.handles_lt n hn)
  have hmap : map_emplace c.hash_table_ key c.alloc_ =
      Function.update c.hash_table_ key (some c.alloc_) := by
    simp [map_emplace, hk]
  unfold insert_element
  rw [hmap]
  refine ⟨?_, ?_, ?_, ?_, ?_, ?_⟩
  · show ((_ :: c.data_).map Prod.fst).Nodup
    rw [List.map_cons, List.nodup_cons]
    refine ⟨?_, h.handles_nodup⟩
    intro hmem
    obtain ⟨n, hn, hn2⟩ := List.mem_map.1 hmem
    exact hfresh n hn hn2
  · intro n hn
    rcases List.mem_cons.1 hn with rfl | hn
    · exact Nat.lt_succ_self _
    · exact Nat.lt_succ_of_lt (h.handles_lt n hn)
  · show ((_ :: c.data_).map (fun n => n.2.key)).Nodup
    rw [List.map_cons, List.nodup_cons]
    refine ⟨?_, h.keys_nodup⟩
    intro hmem
    obtain ⟨n, hn, hn2⟩ := List.mem_map.1 hmem
    exact h.hash_none key hk n hn hn2
  · intro k e he
    simp only at he
    by_cases hkk : k = key
    · subst hkk
      simp only [Function.update_same, Option.some.injEq] at he
      subst he
      exact ⟨_, List.mem_cons_self _ _, rfl, rfl⟩
    · rw [Function.update_noteq hkk] at he
      obtain ⟨n, hn, hn1, hn2⟩ := h.hash_some k e he
      exact ⟨n, List.mem_cons_of_mem _ hn, hn1, hn2⟩
  · intro k hnone n hn
    simp only at hnone
    by_cases hkk : k = key
    · subst hkk
      simp at hnone
    · rw [Function.update_noteq hkk] at hnone
      rcases List.mem_cons.1 hn with rfl | hn
      · exact fun hc => hkk hc.symm
      · exact h.hash_none k hnone n hn
  · show (_ :: c.data_).length ≤ c.size_
    simp only [List.length_cons]
    omega

theorem StoreWF.congr {c c' : Cache_PCA K V} (h : c.StoreWF) (hd : c'.data_ = c.data_)
    (ha : c'.alloc_ = c.alloc_) (hh : c'.hash_table_ = c.hash_table_)
    (hs : c'.size_ = c.size_) : c'.StoreWF := by
  refine ⟨?_, ?_, ?_, ?_, ?_, ?_⟩
  · rw [hd]; exact h.handles_nodup
  · rw [hd, ha]; exact h.handles_lt
  · rw [hd]; exact h.keys_nodup
  · rw [hd, hh]; exact h.hash_some
  · rw [hd, hh]; exact h.hash_none
  · rw [hd, hs]; exact h.size_le

/-- Insertion of a missing key `x` into a store with room, followed by
`insert_update_internals`. -/
theorem insert_tail {c2 : Cache_PCA K V} {i : Nat} {x : K} {post : List K} (F : K → V)
    {f : fidx} (hst : c2.StoreWF) (hk : c2.hash_table_ x = none)
    (hlen : c2.data_.length < c2.size_)
    (hf : ∀ k, (c2.key_seq_fidx_ k).getD [] = positions k post i)
    (haux : AuxInv i post c2.data_ c2.data_fidx_ c2.redundant_)
    (hfi : (f.1 = true ∧ next_use x post i = some f.2) ∨
      (f = (false, 0) ∧ next_use x post i = none)) :
    ∃ c3, (c2.insert_element x F).insert_update_internals f = some c3 ∧ Inv i post c3 ∧
      c3.data_ = (c2.alloc_, ⟨x, F x⟩) :: c2.data_ ∧ c3.size_ = c2.size_ := by
  have hst3 := insert_element_store hst x F hk hlen
  have hfresh : ∀ n ∈ c2.data_, n.1 ≠ c2.alloc_ :=
    fun n hn => Nat.ne_of_lt (hst.handles_lt n hn)
  have hnew : ∀ n ∈ c2.data_, n.2.key ≠ x := hst.hash_none x hk
  have hrun : (c2.insert_element x F).insert_update_internals f =
      some ((c2.insert_element x F).update_internals f c2.alloc_) := by
    simp [insert_update_internals, insert_element]
  refine ⟨_, hrun, ?_, ?_, ?_⟩
  · rcases hfi with ⟨h1, h2⟩ | ⟨h1, h2⟩
    · refine ⟨?_, ?_, ?_⟩
      · refine StoreWF.congr hst3 ?_ ?_ ?_ ?_ <;> simp [update_internals, fidx_is_present, h1]
      · simpa [update_internals, fidx_is_present, h1, insert_element] using hf
      · have := aux_insert_sel (a := c2.alloc_) (e := ⟨x, F x⟩) haux hnew h2
        simpa [update_internals, fidx_is_present, fidx_index, h1, insert_element] using this
    · subst h1
      refine ⟨?_, ?_, ?_⟩
      · refine StoreWF.congr hst3 ?_ ?_ ?_ ?_ <;> simp [update_internals, fidx_is_present]
      · simpa [update_internals, fidx_is_present, insert_element] using hf
      · have := aux_insert_red (a := c2.alloc_) (e := ⟨x, F x⟩) haux hfresh h2
        simpa [update_internals, fidx_is_present, insert_element] using this
  · unfold update_internals
    split_ifs <;> rfl
  · unfold update_internals
    split_ifs <;> rfl

/-- A hit of `lookup_update` while the construction trace is replayed. -/
theorem lookup_update_hit {c : Cache_PCA K V} {i : Nat} {x : K} {post : List K}
    (h : Inv i (x :: post) c) (F : K → V) {it : data_it} (hk : c.hash_table_ x = some it) :
    ∃ c', c.lookup_update x F = some (true, c') ∧ Inv (i + 1) post c' ∧
      c'.size_ = c.size_ ∧ c'.data_ = c.data_ := by
  obtain ⟨n, hn, hn1, hn2⟩ := h.store.hash_some x it hk
  obtain ⟨it', e⟩ := n
  simp only at hn1 hn2
  subst hn1
  have hx := h.fidx x
  rw [positions_cons_self] at hx
  obtain ⟨fi, hget, hf1, hfi⟩ := get_elem_fidx_spec
    (c := { c with data_fidx_ := set_erase set_elem_cmp ⟨it', i⟩ c.data_fidx_ }) h.fidx
  have hrun : c.lookup_update x F = some (true,
      ({ c with
          data_fidx_ := set_erase set_elem_cmp ⟨it', i⟩ c.data_fidx_
          key_seq_fidx_ := Function.update c.key_seq_fidx_ x (some (positions x post (i + 1))) }
        : Cache_PCA K V).update_internals fi it') := by
    simp only [lookup_update, hk, hit_update_internals, hx]
    rw [hget]
    rfl
  refine ⟨_, hrun, ?_, ?_, ?_⟩
  · have haux0 := aux_hit_erase h.aux h.store.handles_nodup h.store.keys_nodup hn hn2
    have hfresh : ∀ n ∈ list_erase c.data_ it', n.1 ≠ it' := fun n hn => (mem_list_erase.1 hn).2
    have hnew : ∀ n ∈ list_erase c.data_ it', n.2.key ≠ e.key := by
      intro n hn hc
      obtain ⟨hn1, hn2⟩ := mem_list_erase.1 hn
      have : n = (it', e) := key_unique h.store.keys_nodup hn1 ‹_› hc
      exact hn2 (by rw [this])
    rcases hfi with ⟨h1, h2⟩ | ⟨h1, h2⟩
    · refine ⟨?_, ?_, ?_⟩
      · refine StoreWF.congr h.store ?_ ?_ ?_ ?_ <;> simp [update_internals, fidx_is_present, h1]
      · simpa [update_internals, fidx_is_present, h1] using hf1
      · rw [← hn2] at h2
        have := aux_congr (aux_insert_sel (a := it') (e := e) haux0 hnew h2)
          (mem_cons_list_erase h.store.handles_nodup hn)
        simpa [update_internals, fidx_is_present, fidx_index, h1] using this
    · subst h1
      refine ⟨?_, ?_, ?_⟩
      · refine StoreWF.congr h.store ?_ ?_ ?_ ?_ <;> simp [update_internals, fidx_is_present]
      · simpa [update_internals, fidx_is_present] using hf1
      · rw [← hn2] at h2
        have := aux_congr (aux_insert_red (a := it') (e := e) haux0 hfresh h2)
          (mem_cons_list_erase h.store.handles_nodup hn)
        simpa [update_internals, fidx_is_present] using this
  · unfold update_internals
    split_ifs <;> rfl
  · unfold update_internals
    split_ifs <;> rfl

/-- A miss of `lookup_update` (capacity not zero) while the construction trace is
replayed. -/
theorem lookup_update_miss {c : Cache_PCA K V} {i : Nat} {x : K} {post : List K}
    (h : Inv i (x :: post) c) (hz : c.size_ ≠ 0) (F : K → V)
    (hk : c.hash_table_ x = none) :
    ∃ c', c.lookup_update x F = some (false, c') ∧ Inv (i + 1) post c' ∧
      c'.size_ = c.size_ ∧
      (c.data_.length ≠ c.size_ → c'.data_ = (c.alloc_, ⟨x, F x⟩) :: c.data_) ∧
      (c.data_.length = c.size_ → next_use x post (i + 1) = none → c'.data_ = c.data_) ∧
      (c.data_.length = c.size_ → next_use x post (i + 1) ≠ none →
        ∀ it rest, c.redundant_ = it :: rest →
          c'.data_ = (c.alloc_, ⟨x, F x⟩) :: list_erase c.data_ it) ∧
      (c.data_.length = c.size_ → ∀ j, next_use x post (i + 1) = some j →
        c.redundant_ = [] → ∃ far rest, c.data_fidx_ = far :: rest ∧
          (far.index ≤ j → c'.data_ = c.data_) ∧
          (j < far.index → c'.data_ = (c.alloc_, ⟨x, F x⟩) :: list_erase c.data_ far.iter)) := by
  have hnew : ∀ n ∈ c.data_, n.2.key ≠ x := h.store.hash_none x hk
  obtain ⟨fi, hget, hf1, hfi⟩ := get_elem_fidx_spec (c := c) h.fidx
  have haux1 := aux_advance h.aux hnew
  -- the state after `get_elem_fidx`
  obtain ⟨c1, hc1⟩ : ∃ c1 : Cache_PCA K V, { c with
      key_seq_fidx_ := Function.update c.key_seq_fidx_ x (some (positions x post (i + 1))) }
      = c1 := ⟨_, rfl⟩
  rw [hc1] at hget
  have e1 : c1.data_ = c.data_ := by rw [← hc1]
  have e2 : c1.size_ = c.size_ := by rw [← hc1]
  have e3 : c1.alloc_ = c.alloc_ := by rw [← hc1]
  have e4 : c1.hash_table_ = c.hash_table_ := by rw [← hc1]
  have e5 : c1.data_fidx_ = c.data_fidx_ := by rw [← hc1]
  have e6 : c1.redundant_ = c.redundant_ := by rw [← hc1]
  have e7 : c1.key_seq_fidx_ =
      Function.update c.key_seq_fidx_ x (some (positions x post (i + 1))) := by rw [← hc1]
  have hst1 : c1.StoreWF := StoreWF.congr h.store e1 e3 e4 e2
  have hinv1 : Inv (i + 1) post c1 := ⟨hst1, by rw [e7]; exact hf1, by rw [e1, e5, e6]; exact haux1⟩
  by_cases hfull : c.data_.length = c.size_
  · have hfull1 : c1.full = true := by simp [full, e1, e2, hfull]
    rcases hfi with ⟨hp, hnu⟩ | ⟨hp, hnu⟩
    · -- the key occurs again
      obtain ⟨fp, j⟩ := fi
      simp only at hp hnu
      subst hp
      cases hred : c.redundant_ with
      | cons it rest =>
        -- a resident without future use is evicted
        have hlive : ∃ n ∈ c1.data_, n.1 = it := by
          obtain ⟨n, hn, hn1, -⟩ := (haux1.red_mem it).1 (by rw [hred]; simp)
          exact ⟨n, by rw [e1]; exact hn, hn1⟩
        obtain ⟨node, hmem, her, hst2, hnone⟩ :=
          erase_element_store (c := { c1 with redundant_ := rest })
            (StoreWF.congr hst1 rfl rfl rfl rfl) hlive
        have hlen2 := list_erase_length hst1.handles_nodup hlive
        have haux2 : AuxInv (i + 1) post (list_erase c1.data_ it) c1.data_fidx_ rest := by
          rw [e1, e5]
          rw [hred] at haux1
          exact aux_erase_red haux1 h.store.handles_nodup
        obtain ⟨c3, hins, hinv3, hd3, hs3⟩ := insert_tail (i := i + 1) (x := x) F (f := (true, j))
          hst2 (hnone x (by rw [e4]; exact hk))
          (by
            show (list_erase c1.data_ it).length < c1.size_
            rw [e2, ← hfull, ← e1]; omega)
          (by
            show ∀ k, (c1.key_seq_fidx_ k).getD [] = positions k post (i + 1)
            rw [e7]; exact hf1)
          haux2 (Or.inl ⟨rfl, hnu⟩)
        refine ⟨c3, ?_, hinv3, ?_, ?_, ?_, ?_, ?_⟩
        · simp only [lookup_update, hk, hz, if_false, hget, hfull1, if_true, free_space,
            fidx_is_present, Bool.not_true, get_elim_from_redundant, e6, hred]
          simp only [Bool.false_eq_true, if_false, List.length_cons, ne_eq,
            Nat.add_one_ne_zero, not_false_eq_true, if_true, her, Option.map_some', hins]
        · rw [hs3]; exact e2
        · intro hc; exact absurd hfull hc
        · intro _ hc; rw [hnu] at hc; simp at hc
        · intro _ _ it2 rest2 heq
          simp only [List.cons.injEq] at heq
          rw [hd3, ← heq.1]
          show (c1.alloc_, _) :: list_erase c1.data_ it = _
          rw [e1, e3]
        · intro _ _ _ hc; simp at hc
      | nil =>
        -- every resident occurs again: the selector is not empty
        have hdne : c.data_ ≠ [] := by
          intro hnil; rw [hnil] at hfull; exact hz hfull.symm
        obtain ⟨n0, rest0, hd0⟩ := List.exists_cons_of_ne_nil hdne
        have hsel_ne : c.data_fidx_ ≠ [] := by
          intro hnil
          have hn0 : n0 ∈ c.data_ := by rw [hd0]; simp
          cases hnu0 : next_use n0.2.key post (i + 1) with
          | none =>
            have := (haux1.red_mem n0.1).2 ⟨n0, hn0, rfl, hnu0⟩
            rw [hred] at this; simp at this
          | some m =>
            have := (haux1.sel_mem ⟨n0.1, m⟩).2 ⟨n0, hn0, rfl, hnu0⟩
            rw [hnil] at this; simp at this
        obtain ⟨far, rest, hsel⟩ := List.exists_cons_of_ne_nil hsel_ne
        by_cases hcmp : far.index ≤ j
        · -- the incoming key is used no sooner than the farthest resident: declined
          refine ⟨c1, ?_, hinv1, e2, ?_, ?_, ?_, ?_⟩
          · simp only [lookup_update, hk, hz, if_false, hget, hfull1, if_true, free_space,
              fidx_is_present, Bool.not_true, e6, hred, farthest_elem, e5, hsel]
            simp [hcmp]
          · intro hc; exact absurd hfull hc
          · intro _ hc; rw [hnu] at hc; simp at hc
          · intro _ _ it2 rest2 heq; simp at heq
          · intro _ j2 hj2 _
            rw [hnu] at hj2
            simp only [Option.some.injEq] at hj2
            subst hj2
            exact ⟨far, rest, hsel, fun _ => e1, fun hc => absurd hcmp (by omega)⟩
        · -- the farthest resident is evicted
          have hlive : ∃ n ∈ c1.data_, n.1 = far.iter := by
            obtain ⟨n, hn, hn1, -⟩ := (haux1.sel_mem far).1 (by rw [hsel]; simp)
            exact ⟨n, by rw [e1]; exact hn, hn1⟩
          obtain ⟨node, hmem, her, hst2, hnone⟩ :=
            erase_element_store (c := { c1 with data_fidx_ := rest })
              (StoreWF.congr hst1 rfl rfl rfl rfl) hlive
          have hlen2 := list_erase_length hst1.handles_nodup hlive
          have haux2 : AuxInv (i + 1) post (list_erase c1.data_ far.iter) rest c1.redundant_ := by
            rw [e1, e6]
            rw [hsel] at haux1
            exact aux_erase_far haux1 h.store.handles_nodup
          obtain ⟨c3, hins, hinv3, hd3, hs3⟩ := insert_tail (i := i + 1) (x := x) F
            (f := (true, j)) hst2 (hnone x (by rw [e4]; exact hk))
            (by
              show (list_erase c1.data_ far.iter).length < c1.size_
              rw [e2, ← hfull, ← e1]; omega)
            (by
              show ∀ k, (c1.key_seq_fidx_ k).getD [] = positions k post (i + 1)
              rw [e7]; exact hf1)
            haux2 (Or.inl ⟨rfl, hnu⟩)
          refine ⟨c3, ?_, hinv3, ?_, ?_, ?_, ?_, ?_⟩
          · simp only [e6, hred] at her hins
            simp only [lookup_update, hk, hz, if_false, hget, hfull1, if_true, free_space,
              fidx_is_present, Bool.not_true, e6, hred, farthest_elem, e5, hsel,
              get_elim_from_data]
            simp [hcmp, her, hins]
          · rw [hs3]; exact e2
          · intro hc; exact absurd hfull hc
          · intro _ hc; rw [hnu] at hc; simp at hc
          · intro _ _ it2 rest2 heq; simp at heq
          · intro _ j2 hj2 _
            rw [hnu] at hj2
            simp only [Option.some.injEq] at hj2
            subst hj2
            refine ⟨far, rest, hsel, fun hc => absurd hc hcmp, fun _ => ?_⟩
            rw [hd3]
            show (c1.alloc_, _) :: list_erase c1.data_ far.iter = _
            rw [e1, e3]
    · -- the key does not occur again: declined
      subst hp
      refine ⟨c1, ?_, hinv1, e2, ?_, ?_, ?_, ?_⟩
      · simp [lookup_update, hk, hz, hget, hfull1, free_space, fidx_is_present]
      · intro hc; exact absurd hfull hc
      · intro _ _; exact e1
      · intro _ hc; exact absurd hnu hc
      · intro _ j hj; rw [hnu] at hj; simp at hj
  · have hfull1 : c1.full = false := by simp [full, e1, e2, hfull]
    obtain ⟨c3, hins, hinv3, hd3, hs3⟩ := insert_tail (i := i + 1) (x := x) F (f := fi)
      hst1 (by rw [e4]; exact hk)
      (by rw [e1, e2]; have := h.store.size_le; omega)
      hinv1.fidx hinv1.aux hfi
    refine ⟨c3, ?_, hinv3, ?_, ?_, ?_, ?_, ?_⟩
    · simp [lookup_update, hk, hz, hget, hfull1, hins]
    · rw [hs3]; exact e2
    · intro _; rw [hd3, e1, e3]
    · intro hc; exact absurd hc hfull
    · intro hc; exact absurd hc hfull
    · intro hc; exact absurd hc hfull

theorem fill_fidx_getD (m : K → Option (List Nat)) (l : List K) (i : Nat) (k : K) :
    (fill_fidx m l i k).getD [] = (m k).getD [] ++ positions k l i := by
  induction l generalizing m i with
  | nil => simp [fill_fidx, positions]
  | cons x rest ih =>
    rw [fill_fidx, ih]
    by_cases hx : x = k
    · subst hx
      simp [positions]
    · rw [Function.update_noteq (fun hc => hx hc.symm), positions_cons_ne hx]

theorem new_store (size : Nat) (key_seq : List K) : (new size key_seq : Cache_PCA K V).StoreWF := by
  refine ⟨?_, ?_, ?_, ?_, ?_, ?_⟩ <;> simp [new]

theorem pca_new_inv (size : Nat) (key_seq : List K) :
    Inv 0 key_seq (new size key_seq : Cache_PCA K V) := by
  refine ⟨new_store size key_seq, ?_, ⟨?_, ?_, ?_, ?_⟩⟩
  · intro k
    simp [new, fill_fidx_getD]
  all_goals simp [new]

/-- One call of `lookup_update` on the next key of the construction trace, capacity not
zero: the call returns, the invariant is kept, and the entry store changes as
described. -/
theorem pca_lookup_update_spec {c : Cache_PCA K V} {i : Nat} {x : K} {post : List K}
    (h : Inv i (x :: post) c) (hz : c.size_ ≠ 0) (F : K → V) :
    ∃ b c', c.lookup_update x F = some (b, c') ∧ Inv (i + 1) post c' ∧
      c'.size_ = c.size_ ∧ (b = true ↔ x ∈ c.keys) ∧
      (x ∈ c.keys → c'.data_ = c.data_) ∧
      (x ∉ c.keys → c.data_.length ≠ c.size_ → c'.data_ = (c.alloc_, ⟨x, F x⟩) :: c.data_) ∧
      (x ∉ c.keys → c.data_.length = c.size_ → next_use x post (i + 1) = none →
        c'.data_ = c.data_) ∧
      (x ∉ c.keys → c.data_.length = c.size_ → next_use x post (i + 1) ≠ none →
        ∀ it rest, c.redundant_ = it :: rest →
          c'.data_ = (c.alloc_, ⟨x, F x⟩) :: list_erase c.data_ it) ∧
      (x ∉ c.keys → c.data_.length = c.size_ → ∀ j, next_use x post (i + 1) = some j →
        c.redundant_ = [] → ∃ far rest, c.data_fidx_ = far :: rest ∧
          (far.index ≤ j → c'.data_ = c.data_) ∧
          (j < far.index → c'.data_ = (c.alloc_, ⟨x, F x⟩) :: list_erase c.data_ far.iter)) := by
  cases hk : c.hash_table_ x with
  | some it =>
    have hin : x ∈ c.keys := by rw [← pca_hash_isSome_iff h.store, hk]; rfl
    obtain ⟨c', h1, h2, h3, h4⟩ := lookup_update_hit h F hk
    refine ⟨true, c', h1, h2, h3, by simp [hin], fun _ => h4, ?_, ?_, ?_, ?_⟩ <;>
      intro hc <;> exact absurd hin hc
  | none =>
    have hnotin : x ∉ c.keys := by rw [← pca_hash_isSome_iff h.store, hk]; simp
    obtain ⟨c', h1, h2, h3, h4, h5, h6, h7⟩ := lookup_update_miss h hz F hk
    exact ⟨false, c', h1, h2, h3, by simp [hnotin], fun hc => absurd hc hnotin,
      fun _ => h4, fun _ => h5, fun _ => h6, fun _ => h7⟩

/-- Replaying the next keys of the construction trace, capacity not zero. -/
theorem replay_inv (pre : List (K × (K → V))) (rest : List K) {c : Cache_PCA K V} {i : Nat}
    (h : Inv i (pre.map Prod.fst ++ rest) c) (hz : c.size_ ≠ 0) :
    ∃ hits c', c.replay pre = some (hits, c') ∧ Inv (i + pre.length) rest c' ∧
      c'.size_ = c.size_ := by
  induction pre generalizing c i with
  | nil => exact ⟨[], c, rfl, by simpa using h, rfl⟩
  | cons call pre ih =>
    obtain ⟨key, F⟩ := call
    obtain ⟨b, c1, h1, hinv1, hsz1, -⟩ := pca_lookup_update_spec (x := key) h hz F
    obtain ⟨hits, c2, h2, hinv2, hsz2⟩ := ih hinv1 (by rw [hsz1]; exact hz)
    refine ⟨b :: hits, c2, by simp [replay, h1, h2], ?_, hsz2.trans hsz1⟩
    have : i + 1 + pre.length = i + (pre.length + 1) := by omega
    rw [List.length_cons, ← this]
    exact hinv2

/-- With capacity zero nothing is ever stored: every call misses and leaves the state
as it is. -/
theorem lookup_update_zero {c : Cache_PCA K V} (hz : c.size_ = 0)
    (hh : ∀ k, c.hash_table_ k = none) (key : K) (F : K → V) :
    c.lookup_update key F = some (false, c) := by
  simp [lookup_update, hh key, hz]

theorem pca_replay_zero {c : Cache_PCA K V} (hz : c.size_ = 0)
    (hh : ∀ k, c.hash_table_ k = none) (calls : List (K × (K → V))) :
    c.replay calls = some (List.replicate calls.length false, c) := by
  induction calls with
  | nil => rfl
  | cons call rest ih =>
    obtain ⟨key, F⟩ := call
    simp [replay, lookup_update_zero hz hh, ih, List.replicate_succ]

/-- Replaying a part `pre` of the construction trace `pre ++ rest` from the constructed
state returns, for every capacity; with capacity not zero the invariant holds in the
state reached. -/
theorem replay_new (size : Nat) (pre : List (K × (K → V))) (rest : List K) :
    ∃ hits c, (new size (pre.map Prod.fst ++ rest) : Cache_PCA K V).replay pre = some (hits, c) ∧
      c.size_ = size ∧ c.StoreWF ∧ (size ≠ 0 → Inv pre.length rest c) ∧
      (size = 0 → c.data_ = [] ∧ ∀ k, c.hash_table_ k = none) := by
  by_cases hz : size = 0
  · subst hz
    refine ⟨_, _, pca_replay_zero rfl (fun _ => rfl) pre, rfl, new_store _ _, fun hc => absurd rfl hc,
      fun _ => ⟨rfl, fun _ => rfl⟩⟩
  · obtain ⟨hits, c, h1, h2, h3⟩ := replay_inv pre rest (c := new size (pre.map Prod.fst ++ rest))
      (pca_new_inv size _) hz
    refine ⟨hits, c, h1, h3, h2.store, fun _ => by simpa using h2, fun hc => absurd hc hz⟩

/-- The four outcomes of a miss on a full store (capacity not zero) while the
construction trace is replayed: declined because the key has no future use; a resident
without future use is evicted; declined because every resident is used again no later
than the key; the resident used last is evicted. -/
theorem full_miss_cases {c : Cache_PCA K V} {i : Nat} {x : K} {post : List K}
    (h : Inv i (x :: post) c) (hz : c.size_ ≠ 0) (F : K → V) (hnotin : x ∉ c.keys)
    (hfull : c.data_.length = c.size_) :
    ∃ c', c.lookup_update x F = some (false, c') ∧ Inv (i + 1) post c' ∧
      c'.size_ = c.size_ ∧
      ((next_use x post (i + 1) = none ∧ c'.data_ = c.data_) ∨
       (∃ j v, next_use x post (i + 1) = some j ∧ v ∈ c.data_ ∧
          next_use v.2.key post (i + 1) = none ∧
          c'.data_ = (c.alloc_, ⟨x, F x⟩) :: list_erase c.data_ v.1) ∨
       (∃ j, next_use x post (i + 1) = some j ∧
          (∀ n ∈ c.data_, ∃ m, next_use n.2.key post (i + 1) = some m ∧ m ≤ j) ∧
          c'.data_ = c.data_) ∨
       (∃ j v mv, next_use x post (i + 1) = some j ∧ v ∈ c.data_ ∧
          next_use v.2.key post (i + 1) = some mv ∧ j < mv ∧
          (∀ n ∈ c.data_, ∃ m, next_use n.2.key post (i + 1) = some m ∧ m ≤ mv) ∧
          c'.data_ = (c.alloc_, ⟨x, F x⟩) :: list_erase c.data_ v.1)) := by
  obtain ⟨b, c', h1, h2, h3, h4, -, -, h5, h6, h7⟩ := pca_lookup_update_spec h hz F
  have hb : b = false := by
    cases b with
    | false => rfl
    | true => exact absurd (h4.1 rfl) hnotin
  subst hb
  have hnew : ∀ n ∈ c.data_, n.2.key ≠ x := fun n hn hc => hnotin (pca_mem_keys.2 ⟨n, hn, hc⟩)
  have haux1 := aux_advance h.aux hnew
  refine ⟨c', h1, h2, h3, ?_⟩
  cases hnu : next_use x post (i + 1) with
  | none => exact Or.inl ⟨rfl, h5 hnotin hfull hnu⟩
  | some j =>
    right
    cases hred : c.redundant_ with
    | cons it rest =>
      left
      obtain ⟨v, hv, hv1, hv2⟩ := (haux1.red_mem it).1 (by rw [hred]; simp)
      refine ⟨j, v, rfl, hv, hv2, ?_⟩
      rw [hv1]
      exact h6 hnotin hfull (by rw [hnu]; simp) it rest hred
    | nil =>
      right
      obtain ⟨far, rest, hsel, hdecl, hevict⟩ := h7 hnotin hfull j hnu hred
      obtain ⟨v, hv, hv1, hv2⟩ := (haux1.sel_mem far).1 (by rw [hsel]; simp)
      have hall : ∀ n ∈ c.data_, ∃ m, next_use n.2.key post (i + 1) = some m ∧ m ≤ far.index := by
        intro n hn
        cases hnn : next_use n.2.key post (i + 1) with
        | none =>
          have := (haux1.red_mem n.1).2 ⟨n, hn, rfl, hnn⟩
          rw [hred] at this; simp at this
        | some m =>
          refine ⟨m, rfl, ?_⟩
          have hm := (haux1.sel_mem ⟨n.1, m⟩).2 ⟨n, hn, rfl, hnn⟩
          rw [hsel] at hm
          rcases List.mem_cons.1 hm with hm | hm
          · rw [← hm]
          · have hs := haux1.sel_sorted
            rw [hsel, List.pairwise_cons] at hs
            exact Nat.le_of_lt (hs.1 _ hm)
      by_cases hcmp : far.index ≤ j
      · left
        refine ⟨j, rfl, ?_, hdecl hcmp⟩
        intro n hn
        obtain ⟨m, hm1, hm2⟩ := hall n hn
        exact ⟨m, hm1, Nat.le_trans hm2 hcmp⟩
      · right
        refine ⟨j, v, far.index, rfl, hv, hv2, by omega, hall, ?_⟩
        rw [hv1]
        exact hevict (by omega)

end Cache_PCA

/-! ## Exchange argument: the hits of `Cache_PCA` against any policy within capacity -/

section

variable {K V : Type} [DecidableEq K]

theorem count_split_mem (f : K → Prop) [DecidablePred f] {x : K} {S : Finset K} (hx : x ∈ S) :
    (S.filter f).card = ((S.erase x).filter f).card + (if f x then 1 else 0) := by
  by_cases hf : f x
  · have : S.filter f = insert x ((S.erase x).filter f) := by
      ext k
      simp only [Finset.mem_filter, Finset.mem_insert, Finset.mem_erase]
      constructor
      · rintro ⟨h1, h2⟩
        by_cases hk : k = x
        · exact Or.inl hk
        · exact Or.inr ⟨⟨hk, h1⟩, h2⟩
      · rintro (rfl | ⟨⟨_, h1⟩, h2⟩)
        · exact ⟨hx, hf⟩
        · exact ⟨h1, h2⟩
    rw [this, Finset.card_insert_of_not_mem (by simp), if_pos hf]
  · have : S.filter f = (S.erase x).filter f := by
      ext k
      simp only [Finset.mem_filter, Finset.mem_erase]
      constructor
      · rintro ⟨h1, h2⟩
        exact ⟨⟨fun hk => hf (hk ▸ h2), h1⟩, h2⟩
      · rintro ⟨⟨_, h1⟩, h2⟩
        exact ⟨h1, h2⟩
    rw [this, if_neg hf, Nat.add_zero]

theorem count_le_of_subset_insert (f : K → Prop) [DecidablePred f] {x : K} {S S' : Finset K}
    (h : S' ⊆ insert x S) :
    (S'.filter f).card ≤ ((S.erase x).filter f).card + (if f x then 1 else 0) := by
  by_cases hf : f x
  · have hsub : S'.filter f ⊆ insert x ((S.erase x).filter f) := by
      intro k hk
      simp only [Finset.mem_filter] at hk
      simp only [Finset.mem_insert, Finset.mem_filter, Finset.mem_erase]
      by_cases hkx : k = x
      · exact Or.inl hkx
      · right
        rcases Finset.mem_insert.1 (h hk.1) with h1 | h1
        · exact absurd h1 hkx
        · exact ⟨⟨hkx, h1⟩, hk.2⟩
    rw [if_pos hf]
    exact Nat.le_trans (Finset.card_le_card hsub) (Finset.card_insert_le _ _)
  · have hsub : S'.filter f ⊆ (S.erase x).filter f := by
      intro k hk
      simp only [Finset.mem_filter] at hk
      simp only [Finset.mem_filter, Finset.mem_erase]
      have hkx : k ≠ x := fun hc => hf (hc ▸ hk.2)
      rcases Finset.mem_insert.1 (h hk.1) with h1 | h1
      · exact absurd h1 hkx
      · exact ⟨⟨hkx, h1⟩, hk.2⟩
    rw [if_neg hf, Nat.add_zero]
    exact Finset.card_le_card hsub

/-- Core of the exchange argument: one request `x`. -/
theorem dom_core (f : K → Prop) [DecidablePred f] (x : K) (SA SA' SB SB' : Finset K)
    (cap hA hB eA eB : Nat)
    (H1 : hA + eA + ((SA.erase x).filter f).card ≤ hB + eB + ((SB.erase x).filter f).card)
    (H2 : hA + eA ≤ hB + eB)
    (H3 : SA' ⊆ insert x SA) (H4 : SA'.card ≤ cap)
    (H5 : ((SB.erase x).filter f).card + (if f x then 1 else 0) ≤ (SB'.filter f).card ∨
      cap ≤ (SB'.filter f).card) :
    hA + eA + (SA'.filter f).card ≤ hB + eB + (SB'.filter f).card := by
  have e1 := count_le_of_subset_insert f H3
  have e2 : (SA'.filter f).card ≤ cap := Nat.le_trans (Finset.card_filter_le _ _) H4
  rcases H5 with H5 | H5 <;> omega

theorem keep_hit (f : K → Prop) [DecidablePred f] {x : K} {SB : Finset K} (hx : x ∈ SB) :
    ((SB.erase x).filter f).card + (if f x then 1 else 0) ≤ (SB.filter f).card := by
  rw [count_split_mem f hx]

theorem insert_free (f : K → Prop) [DecidablePred f] {x : K} {SB : Finset K} :
    ((SB.erase x).filter f).card + (if f x then 1 else 0) ≤ ((insert x SB).filter f).card := by
  rw [count_split_mem f (Finset.mem_insert_self x SB), Finset.erase_insert_eq_erase]

theorem keep_declined (f : K → Prop) [DecidablePred f] {x : K} {SB : Finset K} (hf : ¬ f x) :
    ((SB.erase x).filter f).card + (if f x then 1 else 0) ≤ (SB.filter f).card := by
  rw [if_neg hf, Nat.add_zero]
  exact Finset.card_le_card (Finset.filter_subset_filter _ (Finset.erase_subset _ _))

theorem evict_unused (f : K → Prop) [DecidablePred f] {x v : K} {SB : Finset K} (hf : ¬ f v) :
    ((SB.erase x).filter f).card + (if f x then 1 else 0)
      ≤ ((insert x (SB.erase v)).filter f).card := by
  rw [count_split_mem f (Finset.mem_insert_self x (SB.erase v)), Finset.erase_insert_eq_erase]
  apply Nat.add_le_add_right
  apply Finset.card_le_card
  intro k hk
  simp only [Finset.mem_filter, Finset.mem_erase] at hk ⊢
  exact ⟨⟨hk.1.1, fun hc => hf (hc ▸ hk.2), hk.1.2⟩, hk.2⟩

theorem saturated (f : K → Prop) [DecidablePred f] {S : Finset K} (h : ∀ k ∈ S, f k) :
    (S.filter f).card = S.card := by
  rw [Finset.filter_true_of_mem h]

theorem used_by_cons_self (x : K) (post : List K) {i t : Nat} (h : i ≤ t) :
    used_by x (x :: post) i t = true := by
  simp [used_by, next_use_cons_self, h]

theorem used_by_cons_ne {k x : K} (h : k ≠ x) (post : List K) (i t : Nat) :
    used_by k (x :: post) i t = used_by k post (i + 1) t := by
  simp [used_by, next_use_cons_ne (fun hc => h hc.symm)]

theorem used_by_early (k : K) (post : List K) {i t : Nat} (h : t ≤ i) :
    used_by k post (i + 1) t = false := by
  unfold used_by
  cases hn : next_use k post (i + 1) with
  | none => rfl
  | some j =>
    have := next_use_ge hn
    simp only [decide_eq_false_iff_not]
    omega

theorem used_by_nil (k : K) (i t : Nat) : used_by k [] i t = false := by
  simp [used_by, next_use, positions]

theorem used_by_of_next_use {k : K} {post : List K} {i j t : Nat}
    (h : next_use k post i = some j) : used_by k post i t = true ↔ j ≤ t := by
  simp [used_by, h]

theorem used_by_of_none {k : K} {post : List K} {i t : Nat}
    (h : next_use k post i = none) : ¬ used_by k post i t = true := by
  simp [used_by, h]

theorem old_count (x : K) (post : List K) {i t : Nat} (h : i ≤ t) (S : Finset K) :
    (S.filter (fun k => used_by k (x :: post) i t = true)).card =
      (if x ∈ S then 1 else 0) +
        ((S.erase x).filter (fun k => used_by k post (i + 1) t = true)).card := by
  have hcongr : (S.erase x).filter (fun k => used_by k (x :: post) i t = true) =
      (S.erase x).filter (fun k => used_by k post (i + 1) t = true) := by
    apply Finset.filter_congr
    intro k hk
    rw [used_by_cons_ne (Finset.ne_of_mem_erase hk)]
  by_cases hx : x ∈ S
  · rw [count_split_mem _ hx, hcongr, if_pos hx, if_pos (used_by_cons_self x post h)]
    omega
  · rw [if_neg hx, Nat.zero_add, ← hcongr, Finset.erase_eq_of_not_mem hx]

/-- One request `x` keeps the potential, for any next resident set `SA'` of the first
policy within capacity `m` and a next resident set `SB'` of the second that loses no key
used by the horizon unless all its `m` keys are. -/
theorem dominates_step {x : K} {post : List K} {i hA hB m : Nat} {SA SA' SB SB' : Finset K}
    (hdom : dominates i (x :: post) hA SA hB SB)
    (H3 : SA' ⊆ insert x SA) (H4 : SA'.card ≤ m)
    (H5 : ∀ t, ((SB.erase x).filter (fun k => used_by k post (i + 1) t = true)).card +
        (if used_by x post (i + 1) t = true then 1 else 0)
          ≤ (SB'.filter (fun k => used_by k post (i + 1) t = true)).card ∨
        m ≤ (SB'.filter (fun k => used_by k post (i + 1) t = true)).card) :
    dominates (i + 1) post (hA + (if x ∈ SA then 1 else 0)) SA'
      (hB + (if x ∈ SB then 1 else 0)) SB' := by
  have H2 : hA + (if x ∈ SA then 1 else 0) ≤ hB + (if x ∈ SB then 1 else 0) := by
    have h := hdom i
    rw [old_count x post (Nat.le_refl i), old_count x post (Nat.le_refl i)] at h
    have hz : ∀ S : Finset K,
        ((S.erase x).filter (fun k => used_by k post (i + 1) i = true)).card = 0 := by
      intro S
      rw [Finset.card_eq_zero, Finset.filter_eq_empty_iff]
      intro k _
      rw [used_by_early k post (Nat.le_refl i)]
      simp
    rw [hz, hz] at h
    omega
  intro t
  by_cases ht : t ≤ i
  · have hz : ∀ S : Finset K,
        (S.filter (fun k => used_by k post (i + 1) t = true)).card = 0 := by
      intro S
      rw [Finset.card_eq_zero, Finset.filter_eq_empty_iff]
      intro k _
      rw [used_by_early k post ht]
      simp
    rw [hz, hz]
    exact H2
  · have h := hdom t
    rw [old_count x post (by omega), old_count x post (by omega)] at h
    exact dom_core _ x SA SA' SB SB' m hA hB _ _ (by omega) H2 H3 H4 (H5 t)

theorem keyset_list_erase {V : Type} {data : list K V}
    (hnd : (data.map Prod.fst).Nodup) (hkd : (data.map (fun n => n.2.key)).Nodup)
    {v : data_it × data_elem_t K V} (hv : v ∈ data) :
    ((list_erase data v.1).map (fun n => n.2.key)).toFinset =
      ((data.map (fun n => n.2.key)).toFinset).erase v.2.key := by
  ext k
  simp only [List.mem_toFinset, List.mem_map, Finset.mem_erase]
  constructor
  · rintro ⟨n, hn, rfl⟩
    obtain ⟨hn1, hn2⟩ := mem_list_erase.1 hn
    refine ⟨fun hc => hn2 ?_, n, hn1, rfl⟩
    rw [key_unique hkd hn1 hv hc]
  · rintro ⟨hne, n, hn, rfl⟩
    refine ⟨n, mem_list_erase.2 ⟨hn, fun hc => hne ?_⟩, rfl⟩
    rw [handle_unique hnd hn hv hc]

theorem Cache_LFU.lfu_keys_card {c : Cache_LFU K V} (h : c.WF) :
    c.keys.toFinset.card = c.data_.length := by
  show (c.data_.map (fun n => n.2.key)).toFinset.card = c.data_.length
  rw [List.toFinset_card_of_nodup h.keys_nodup, List.length_map]

theorem Cache_PCA.pca_keys_card {c : Cache_PCA K V} (h : c.StoreWF) :
    c.keys.toFinset.card = c.data_.length := by
  show (c.data_.map (fun n => n.2.key)).toFinset.card = c.data_.length
  rw [List.toFinset_card_of_nodup h.keys_nodup, List.length_map]

/-- One call on a `Cache_LFU`: the resident keys afterwards are among the former ones
and the requested key, and within capacity. -/
theorem Cache_LFU.lfu_step_keys {c : Cache_LFU K V} (h : c.Inv) (x : K) (F : K → V) :
    ∃ b c', c.lookup_update x F = some (b, c') ∧ c'.Inv ∧ c'.size_ = c.size_ ∧
      (b = true ↔ x ∈ c.keys) ∧ c'.keys.toFinset ⊆ insert x c.keys.toFinset ∧
      c'.keys.toFinset.card ≤ c.size_ := by
  obtain ⟨b, c', h1, h2, h3, h4, h5, h6, h7, h8⟩ := Cache_LFU.lfu_lookup_update_spec h x F
  refine ⟨b, c', h1, h2, h3, h4, ?_, ?_⟩
  · intro k hk
    rw [List.mem_toFinset, Cache_LFU.lfu_mem_keys] at hk
    obtain ⟨n, hn, hnk⟩ := hk
    rw [Finset.mem_insert, List.mem_toFinset, Cache_LFU.lfu_mem_keys]
    cases b with
    | true =>
      rw [h5 rfl] at hn
      exact Or.inr ⟨n, hn, hnk⟩
    | false =>
      by_cases hz : c.size_ = 0
      · rw [h6 rfl hz] at hn
        exact Or.inr ⟨n, hn, hnk⟩
      · by_cases hfull : c.data_.length = c.size_
        · obtain ⟨rec, -, -, hd⟩ := h8 rfl hz hfull
          rw [hd] at hn
          rcases List.mem_cons.1 hn with rfl | hn
          · exact Or.inl hnk.symm
          · exact Or.inr ⟨n, (mem_list_erase.1 hn).1, hnk⟩
        · rw [h7 rfl hz hfull] at hn
          rcases List.mem_cons.1 hn with rfl | hn
          · exact Or.inl hnk.symm
          · exact Or.inr ⟨n, hn, hnk⟩
  · rw [Cache_LFU.lfu_keys_card h2.wf, ← h3]
    exact h2.size_le

/-- One call on a `Cache_PCA` on the next key of its trace, capacity not zero: for
every horizon, no resident key used by then is lost, unless all the residents
afterwards are used by then and the store is full. -/
theorem Cache_PCA.pca_step_keys {c : Cache_PCA K V} {i : Nat} {x : K} {post : List K}
    (h : Cache_PCA.Inv i (x :: post) c) (hz : c.size_ ≠ 0) (F : K → V) :
    ∃ b c', c.lookup_update x F = some (b, c') ∧ Cache_PCA.Inv (i + 1) post c' ∧
      c'.size_ = c.size_ ∧ (b = true ↔ x ∈ c.keys) ∧
      ∀ t, ((c.keys.toFinset.erase x).filter (fun k => used_by k post (i + 1) t = true)).card +
          (if used_by x post (i + 1) t = true then 1 else 0)
            ≤ (c'.keys.toFinset.filter (fun k => used_by k post (i + 1) t = true)).card ∨
          c.size_ ≤ (c'.keys.toFinset.filter (fun k => used_by k post (i + 1) t = true)).card := by
  have hkeys : ∀ c' : Cache_PCA K V, c'.data_ = c.data_ → c'.keys.toFinset = c.keys.toFinset := by
    intro c' hd; simp [Cache_PCA.keys, hd]
  have hkeys_cons : ∀ (c' : Cache_PCA K V) (l : list K V),
      c'.data_ = (c.alloc_, ⟨x, F x⟩) :: l →
      c'.keys.toFinset = insert x (l.map (fun n => n.2.key)).toFinset := by
    intro c' l hd; simp [Cache_PCA.keys, hd]
  by_cases hmiss : x ∉ c.keys ∧ c.data_.length = c.size_
  · obtain ⟨hnotin, hfull⟩ := hmiss
    obtain ⟨c', h1, h2, h3, hcases⟩ := Cache_PCA.full_miss_cases h hz F hnotin hfull
    refine ⟨false, c', h1, h2, h3, by simp [hnotin], fun t => ?_⟩
    have hxS : x ∉ c.keys.toFinset := by rwa [List.mem_toFinset]
    rcases hcases with ⟨hnu, hd⟩ | ⟨j, v, hnu, hv, hvn, hd⟩ | ⟨j, hnu, hall, hd⟩ |
      ⟨j, v, mv, hnu, hv, hvn, hlt, hall, hd⟩
    · left
      rw [hkeys c' hd]
      exact keep_declined _ (used_by_of_none hnu)
    · left
      rw [hkeys_cons c' _ hd, keyset_list_erase h.store.handles_nodup h.store.keys_nodup hv]
      exact evict_unused _ (used_by_of_none hvn)
    · rw [hkeys c' hd]
      by_cases hf : used_by x post (i + 1) t = true
      · right
        have hjt : j ≤ t := (used_by_of_next_use hnu).1 hf
        rw [saturated, Cache_PCA.pca_keys_card h.store, hfull]
        intro k hk
        rw [List.mem_toFinset, Cache_PCA.pca_mem_keys] at hk
        obtain ⟨n, hn, rfl⟩ := hk
        obtain ⟨m, hm, hle⟩ := hall n hn
        exact (used_by_of_next_use hm).2 (Nat.le_trans hle hjt)
      · left
        exact keep_declined _ hf
    · rw [hkeys_cons c' _ hd, keyset_list_erase h.store.handles_nodup h.store.keys_nodup hv]
      by_cases hf : used_by v.2.key post (i + 1) t = true
      · right
        have hmt : mv ≤ t := (used_by_of_next_use hvn).1 hf
        have hvS : v.2.key ∈ (c.data_.map (fun n => n.2.key)).toFinset := by
          rw [List.mem_toFinset]; exact List.mem_map_of_mem _ hv
        have hxS2 : x ∉ (c.data_.map (fun n => n.2.key)).toFinset := hxS
        have hcard : (insert x ((c.data_.map (fun n => n.2.key)).toFinset.erase v.2.key)).card
            = c.size_ := by
          rw [Finset.card_insert_of_not_mem (fun hc => hxS2 (Finset.mem_of_mem_erase hc)),
            Finset.card_erase_of_mem hvS]
          have := Cache_PCA.pca_keys_card h.store
          simp only [Cache_PCA.keys] at this
          rw [this, hfull]
          omega
        rw [saturated, hcard]
        intro k hk
        rcases Finset.mem_insert.1 hk with rfl | hk
        · exact (used_by_of_next_use hnu).2 (by omega)
        · have hk2 := Finset.mem_of_mem_erase hk
          rw [List.mem_toFinset, List.mem_map] at hk2
          obtain ⟨n, hn, rfl⟩ := hk2
          obtain ⟨m, hm, hle⟩ := hall n hn
          exact (used_by_of_next_use hm).2 (Nat.le_trans hle hmt)
      · left
        exact evict_unused _ hf
  · obtain ⟨b, c', h1, h2, h3, h4, h5, h6, -⟩ := Cache_PCA.pca_lookup_update_spec h hz F
    refine ⟨b, c', h1, h2, h3, h4, fun t => Or.inl ?_⟩
    by_cases hin : x ∈ c.keys
    · rw [hkeys c' (h5 hin)]
      exact keep_hit _ (by rwa [List.mem_toFinset])
    · have hne : c.data_.length ≠ c.size_ := fun hc => hmiss ⟨hin, hc⟩
      rw [hkeys_cons c' _ (h6 hin hne)]
      exact insert_free _

/-- Exchange argument along the rest of the trace (capacity not zero): `test_cache`
returns on both caches, and the lead of the `Cache_PCA` in the potential carries over to
the hit counts. -/
theorem dominates_run [Inhabited V] (post : List K) :
    ∀ (i : Nat) (cA : Cache_LFU K V) (cB : Cache_PCA K V) (hA hB : Nat),
      cA.Inv → Cache_PCA.Inv i post cB → cA.size_ = cB.size_ → cB.size_ ≠ 0 →
      dominates i post hA cA.keys.toFinset hB cB.keys.toFinset →
      ∃ rA rB, test_cache_LFU cA post = some rA ∧ test_cache_PCA cB post = some rB ∧
        hA + rA ≤ hB + rB := by
  induction post with
  | nil =>
    intro i cA cB hA hB _ _ _ _ hdom
    refine ⟨0, 0, rfl, rfl, ?_⟩
    have h := hdom 0
    have hz : ∀ S : Finset K, (S.filter (fun k => used_by k [] i 0 = true)).card = 0 := by
      intro S
      rw [Finset.card_eq_zero, Finset.filter_eq_empty_iff]
      intro k _
      rw [used_by_nil]
      simp
    rw [hz, hz] at h
    exact h
  | cons x post ih =>
    intro i cA cB hA hB hinvA hinvB hsz hz hdom
    obtain ⟨bA, cA', hA1, hinvA', hszA, hbA, hsub, hcard⟩ :=
      Cache_LFU.lfu_step_keys hinvA x (fun _ => default)
    obtain ⟨bB, cB', hB1, hinvB', hszB, hbB, hH5⟩ :=
      Cache_PCA.pca_step_keys hinvB hz (fun _ => default)
    have hstep := dominates_step (m := cB.size_) hdom hsub (by rw [← hsz]; exact hcard) hH5
    obtain ⟨rA, rB, hrA, hrB, hle⟩ := ih (i + 1) cA' cB' _ _ hinvA' hinvB'
      (by rw [hszA, hszB, hsz]) (by rw [hszB]; exact hz) hstep
    refine ⟨bA.toNat + rA, bB.toNat + rB, ?_, ?_, ?_⟩
    · simp [test_cache_LFU, hA1, hrA]
    · simp [test_cache_PCA, hB1, hrB]
    · have eA : (if x ∈ cA.keys.toFinset then 1 else 0) = bA.toNat := by
        cases bA with
        | true =>
          have : x ∈ cA.keys.toFinset := List.mem_toFinset.2 (hbA.1 rfl)
          simp [this]
        | false =>
          have : x ∉ cA.keys.toFinset :=
            fun hc => by simpa using hbA.2 (List.mem_toFinset.1 hc)
          simp [this]
      have eB : (if x ∈ cB.keys.toFinset then 1 else 0) = bB.toNat := by
        cases bB with
        | true =>
          have : x ∈ cB.keys.toFinset := List.mem_toFinset.2 (hbB.1 rfl)
          simp [this]
        | false =>
          have : x ∉ cB.keys.toFinset :=
            fun hc => by simpa using hbB.2 (List.mem_toFinset.1 hc)
          simp [this]
      rw [eA, eB] at hle
      omega

theorem test_cache_LFU_zero [Inhabited V] {c : Cache_LFU K V} (hz : c.size_ = 0)
    (hh : ∀ k, c.hash_table_ k = none) (key_seq : List K) :
    test_cache_LFU c key_seq = some 0 := by
  induction key_seq with
  | nil => rfl
  | cons x rest ih => simp [test_cache_LFU, Cache_LFU.lookup_update, hh x, hz, ih]

theorem test_cache_PCA_zero [Inhabited V] {c : Cache_PCA K V} (hz : c.size_ = 0)
    (hh : ∀ k, c.hash_table_ k = none) (key_seq : List K) :
    test_cache_PCA c key_seq = some 0 := by
  induction key_seq with
  | nil => rfl
  | cons x rest ih => simp [test_cache_PCA, Cache_PCA.lookup_update, hh x, hz, ih]

end

/-! ## Calls after `Cache_LFU::clear()`, value producers, and positions in the trace -/

section

variable {K V : Type} [DecidableEq K]

theorem Cache_LFU.lfu_hit_indep {c : Cache_LFU K V} {key : K} {hit : Cache_LFU.set_elem_t}
    (h : c.hash_table_ key = some hit) (F G : K → V) :
    c.lookup_update key F = c.lookup_update key G := by
  simp [Cache_LFU.lookup_update, h]

theorem Cache_PCA.pca_hit_indep {c : Cache_PCA K V} {key : K} {hit : data_it}
    (h : c.hash_table_ key = some hit) (F G : K → V) :
    c.lookup_update key F = c.lookup_update key G := by
  simp [Cache_PCA.lookup_update, h]

theorem Cache_PCA.get_elem_fidx_data {c c1 : Cache_PCA K V} {key : K} {fi : Cache_PCA.fidx}
    (h : c.get_elem_fidx key = some (fi, c1)) : c1.data_ = c.data_ := by
  unfold Cache_PCA.get_elem_fidx at h
  split at h
  · simp at h
  · split at h <;>
    · simp only [Option.some.injEq, Prod.mk.injEq] at h
      rw [← h.2]

theorem map_true_ne_false {A : Type} (x : Option A) (y : A) :
    x.map (fun c => (true, c)) ≠ some (false, y) := by
  cases x <;> simp

theorem Cache_PCA.free_space_false {c c2 : Cache_PCA K V} {fi : Cache_PCA.fidx}
    (h : c.free_space fi = some (false, c2)) : c2 = c := by
  unfold Cache_PCA.free_space at h
  split_ifs at h with h1 h2
  · simp only [Option.some.injEq, Prod.mk.injEq, true_and] at h
    exact h.symm
  · split at h
    · simp at h
    · exact absurd h (map_true_ne_false _ _)
  · split at h
    · simp at h
    · split_ifs at h
      · simp only [Option.some.injEq, Prod.mk.injEq, true_and] at h
        exact h.symm
      · split at h
        · simp at h
        · exact absurd h (map_true_ne_false _ _)

theorem Cache_PCA.insert_then_resident {c2 c3 : Cache_PCA K V} {key : K} {F : K → V}
    {fi : Cache_PCA.fidx}
    (h : (c2.insert_element key F).insert_update_internals fi = some c3) : key ∈ c3.keys := by
  simp only [Cache_PCA.insert_update_internals, Cache_PCA.insert_element, Option.some.injEq] at h
  rw [← h]
  unfold Cache_PCA.update_internals
  split_ifs <;> simp [Cache_PCA.keys]

/-- A call that misses and leaves the key not resident has declined the insertion: it
returns the same result for every value producer and leaves `data_` as it is. -/
theorem Cache_PCA.pca_declined_indep {c c' : Cache_PCA K V} {key : K} {F : K → V}
    (h : c.lookup_update key F = some (false, c')) (hnot : key ∉ c'.keys) (G : K → V) :
    c.lookup_update key G = some (false, c') ∧ c'.data_ = c.data_ := by
  unfold Cache_PCA.lookup_update at h ⊢
  cases hk : c.hash_table_ key with
  | some hit =>
    rw [hk] at h
    simp only at h
    cases hh : c.hit_update_internals key hit with
    | none => simp [hh] at h
    | some c1 => simp [hh] at h
  | none =>
    rw [hk] at h
    simp only at h ⊢
    by_cases hz : c.size_ = 0
    · simp only [hz, if_true, Option.some.injEq, Prod.mk.injEq, true_and] at h ⊢
      exact ⟨h, by rw [← h]⟩
    · simp only [hz, if_false] at h ⊢
      cases hg : c.get_elem_fidx key with
      | none => simp [hg] at h
      | some r =>
        obtain ⟨fi, c1⟩ := r
        have hd1 := Cache_PCA.get_elem_fidx_data hg
        rw [hg] at h
        simp only at h ⊢
        by_cases hfull : c1.full = true
        · simp only [hfull, if_true] at h ⊢
          cases hfs : c1.free_space fi with
          | none => simp [hfs] at h
          | some r2 =>
            obtain ⟨b2, c2⟩ := r2
            rw [hfs] at h
            cases b2 with
            | false =>
              simp only [Option.some.injEq, Prod.mk.injEq, true_and] at h ⊢
              refine ⟨h, ?_⟩
              rw [← h, Cache_PCA.free_space_false hfs, hd1]
            | true =>
              simp only at h
              cases hi : (c2.insert_element key F).insert_update_internals fi with
              | none => simp [hi] at h
              | some c3 =>
                simp only [hi, Option.map_some', Option.some.injEq, Prod.mk.injEq, true_and] at h
                rw [← h] at hnot
                exact absurd (Cache_PCA.insert_then_resident hi) hnot
        · simp only [hfull] at h ⊢
          cases hi : (c1.insert_element key F).insert_update_internals fi with
          | none => simp [hi] at h
          | some c3 =>
            simp only [hi, Option.map_some', Option.some.injEq, Prod.mk.injEq, true_and,
              Bool.false_eq_true, if_false] at h
            rw [← h] at hnot
            exact absurd (Cache_PCA.insert_then_resident hi) hnot

theorem positions_eq_nil {k : K} {l : List K} (i : Nat) (h : k ∉ l) : positions k l i = [] := by
  have := (next_use_eq_none (i := i)).2 h
  unfold next_use at this
  exact List.head?_eq_none_iff.1 this

theorem positions_eq_filter (k : K) (l : List K) (off : Nat) :
    positions k l off = (all_positions k l).map (fun i => i + off) := by
  induction l generalizing off with
  | nil => simp [positions, all_positions]
  | cons x rest ih =>
    have hrec : (all_positions k (x :: rest)) =
        (if x = k then [0] else []) ++ (all_positions k rest).map Nat.succ := by
      unfold all_positions
      rw [List.length_cons, List.range_succ_eq_map, List.filter_cons, List.filter_map]
      have h0 : decide ((x :: rest)[0]? = some k) = decide (x = k) := by simp
      have hs : ((fun i => decide ((x :: rest)[i]? = some k)) ∘ Nat.succ) =
          (fun i => decide (rest[i]? = some k)) := by
        funext i; simp
      rw [h0, hs]
      by_cases hx : x = k <;> simp [hx]
    rw [hrec]
    unfold positions
    rw [ih (off + 1)]
    have hmap : List.map (fun i => i + off) (List.map Nat.succ (all_positions k rest)) =
        List.map (fun i => i + (off + 1)) (all_positions k rest) := by
      rw [List.map_map]
      apply List.map_congr_left
      intro a _
      simp only [Function.comp, Nat.succ_eq_add_one]
      omega
    by_cases hx : x = k
    · simp only [hx, if_true, List.map_append, List.map_cons, List.map_nil, Nat.zero_add,
        List.singleton_append, hmap]
    · simp only [hx, if_false, List.nil_append, hmap]

theorem all_positions_sorted (k : K) (l : List K) :
    (all_positions k l).Pairwise (fun a b => a < b) :=
  List.Pairwise.filter _ (List.pairwise_lt_range _)

theorem mem_all_positions (k : K) (l : List K) (i : Nat) :
    i ∈ all_positions k l ↔ l[i]? = some k := by
  unfold all_positions
  simp only [List.mem_filter, List.mem_range, decide_eq_true_eq]
  constructor
  · exact fun h => h.2
  · intro h
    refine ⟨?_, h⟩
    by_contra hc
    rw [List.getElem?_eq_none (by omega)] at h
    simp at h

theorem Cache_PCA.fill_fidx_eq (m : K → Option (List Nat)) (l : List K) (i : Nat) (k : K) :
    Cache_PCA.fill_fidx m l i k =
      if k ∈ l then some ((m k).getD [] ++ positions k l i) else m k := by
  induction l generalizing m i with
  | nil => simp [Cache_PCA.fill_fidx]
  | cons x rest ih =>
    rw [Cache_PCA.fill_fidx, ih]
    by_cases hx : x = k
    · subst hx
      by_cases hr : x ∈ rest
      · simp [hr, positions]
      · simp [hr, positions, positions_eq_nil _ hr]
    · have hkx : k ≠ x := fun hc => hx hc.symm
      rw [Function.update_noteq hkx, positions_cons_ne hx]
      by_cases hr : k ∈ rest
      · simp [hr]
      · simp [hr, hkx]

theorem next_use_spec {k : K} {post : List K} {off j : Nat}
    (h : next_use k post off = some j) :
    off ≤ j ∧ post[j - off]? = some k ∧
      ∀ j', off ≤ j' → j' < j → post[j' - off]? ≠ some k := by
  induction post generalizing off with
  | nil => simp [next_use, positions] at h
  | cons x rest ih =>
    rw [next_use_cons] at h
    by_cases hx : x = k
    · simp only [hx, if_true, Option.some.injEq] at h
      subst h
      refine ⟨Nat.le_refl _, by simp [hx], fun j' h1 h2 => by omega⟩
    · simp only [hx, if_false] at h
      obtain ⟨h1, h2, h3⟩ := ih h
      refine ⟨by omega, ?_, ?_⟩
      · have : j - off = (j - (off + 1)) + 1 := by omega
        rw [this, List.getElem?_cons_succ]
        exact h2
      · intro j' hj1 hj2
        by_cases hj : j' = off
        · subst hj
          simp [hx]
        · have : j' - off = (j' - (off + 1)) + 1 := by omega
          rw [this, List.getElem?_cons_succ]
          exact h3 j' (by omega) hj2

theorem is_next_occurrence_of_next_use {k : K} (pre post : List K) {j : Nat}
    (h : next_use k post pre.length = some j) :
    is_next_occurrence (pre ++ post) pre.length k j := by
  obtain ⟨h1, h2, h3⟩ := next_use_spec h
  refine ⟨h1, ?_, ?_⟩
  · rw [List.getElem?_append_right h1]
    exact h2
  · intro j' hj1 hj2
    rw [List.getElem?_append_right hj1]
    exact h3 j' hj1 hj2

theorem no_occurrence_of_next_use {k : K} (pre post : List K)
    (h : next_use k post pre.length = none) :
    no_occurrence_from (pre ++ post) pre.length k := by
  intro j hj hc
  rw [List.getElem?_append_right hj] at hc
  exact next_use_eq_none.1 h (List.getElem?_mem hc)

end

/-! ## Claims -/

theorem Cache_LFU.lfu_replay_zero {K V : Type} [DecidableEq K] {c : Cache_LFU K V}
    (hz : c.size_ = 0) (hh : ∀ k, c.hash_table_ k = none) (calls : List (K × (K → V))) :
    c.replay calls = some (List.replicate calls.length false, c) := by
  induction calls with
  | nil => rfl
  | cons call rest ih =>
    obtain ⟨key, F⟩ := call
    simp [Cache_LFU.replay, Cache_LFU.lookup_update, hh key, hz, ih, List.replicate_succ]

theorem Cache_PCA.full_iff {K V : Type} (c : Cache_PCA K V) :
    c.full = true ↔ c.data_.length = c.size_ := by
  simp [Cache_PCA.full]

theorem Cache_PCA.not_mem_keys_of_data_eq {K V : Type} {c c' : Cache_PCA K V} {key : K}
    (hd : c'.data_ = c.data_) (h : key ∉ c.keys) : key ∉ c'.keys := by
  simpa [Cache_PCA.keys, hd] using h

theorem Cache_PCA.pca_mem_keys_of_data_cons {K V : Type} {c' : Cache_PCA K V} {key : K}
    {a : data_it} {v : V} {l : list K V} (hd : c'.data_ = (a, ⟨key, v⟩) :: l) :
    key ∈ c'.keys := by
  simp [Cache_PCA.keys, hd]

/-- A resident whose key is used again has exactly one selector record and is not on
the stack; a resident whose key is not used again is on the stack once and has no
selector record. -/
theorem Cache_PCA.held_once {K V : Type} [DecidableEq K] {i : Nat} {post : List K}
    {data : list K V} {sel : List Cache_PCA.set_elem_t} {red : List data_it}
    (h : Cache_PCA.AuxInv i post data sel red) (hnd : (data.map Prod.fst).Nodup)
    {n : data_it × data_elem_t K V} (hn : n ∈ data) :
    sel.countP (fun r => decide (r.iter = n.1)) + red.count n.1 = 1 := by
  have hsel_nodup : sel.Nodup := h.sel_sorted.imp (fun hab hc => by rw [hc] at hab; omega)
  cases hnu : next_use n.2.key post i with
  | none =>
    have h1 : sel.countP (fun r => decide (r.iter = n.1)) = 0 := by
      rw [List.countP_eq_zero]
      intro r hr hc
      simp only [decide_eq_true_eq] at hc
      obtain ⟨m, hm, hm1, hm2⟩ := (h.sel_mem r).1 hr
      have : m = n := handle_unique hnd hm hn (hm1.trans hc)
      rw [this, hnu] at hm2
      simp at hm2
    have h2 : red.count n.1 = 1 :=
      List.count_eq_one_of_mem h.red_nodup ((h.red_mem n.1).2 ⟨n, hn, rfl, hnu⟩)
    omega
  | some j =>
    have hmem : (⟨n.1, j⟩ : Cache_PCA.set_elem_t) ∈ sel := (h.sel_mem ⟨n.1, j⟩).2 ⟨n, hn, rfl, hnu⟩
    have h1 : sel.countP (fun r => decide (r.iter = n.1)) = sel.count ⟨n.1, j⟩ := by
      rw [List.count]
      apply List.countP_congr
      intro r hr
      simp only [decide_eq_true_eq, beq_iff_eq]
      constructor
      · intro hc
        obtain ⟨m, hm, hm1, hm2⟩ := (h.sel_mem r).1 hr
        have : m = n := handle_unique hnd hm hn (hm1.trans hc)
        rw [this, hnu] at hm2
        simp only [Option.some.injEq] at hm2
        cases r
        simp only at hc hm2
        rw [hc, hm2]
      · intro hc
        rw [hc]
    have h2 : red.count n.1 = 0 := by
      rw [List.count_eq_zero]
      intro hc
      obtain ⟨m, hm, hm1, hm2⟩ := (h.red_mem n.1).1 hc
      have : m = n := handle_unique hnd hm hn hm1
      rw [this, hnu] at hm2
      simp at hm2
    rw [h1, h2, List.count_eq_one_of_mem hsel_nodup hmem]

/-- C1: for both engines (`Cache_LFU` from a fresh cache after any calls `pre`;
`Cache_PCA` constructed from a trace and fed the part `pre` of it), the next call
`lookup_update(key, F)` returns, and it returns true exactly when an entry with that key
is in the entry store right before the call. -/
theorem C1_hit_iff_resident {K V : Type} [DecidableEq K] (cap : Nat)
    (pre : List (K × (K → V))) (key : K) (F : K → V) (post : List K) :
    (∃ hits c b c', (Cache_LFU.new cap : Cache_LFU K V).replay pre = some (hits, c) ∧
      c.lookup_update key F = some (b, c') ∧
      (b = true ↔ ∃ n ∈ c.data_, n.2.key = key)) ∧
    (∃ hits c b c',
      (Cache_PCA.new cap (pre.map Prod.fst ++ key :: post) : Cache_PCA K V).replay pre
        = some (hits, c) ∧
      c.lookup_update key F = some (b, c') ∧
      (b = true ↔ ∃ n ∈ c.data_, n.2.key = key)) := by
  constructor
  · obtain ⟨hits, c, h1, hinv, -⟩ := Cache_LFU.lfu_replay_spec pre (Cache_LFU.lfu_new_inv (K := K) (V := V) cap)
    obtain ⟨b, c', h2, -, -, h3, -⟩ := Cache_LFU.lfu_lookup_update_spec hinv key F
    exact ⟨hits, c, b, c', h1, h2, by rw [h3, Cache_LFU.lfu_mem_keys]⟩
  · obtain ⟨hits, c, h1, hsz, -, hinv, hzero⟩ :=
      Cache_PCA.replay_new (V := V) cap pre (key :: post)
    by_cases hz : cap = 0
    · obtain ⟨hd, hh⟩ := hzero hz
      refine ⟨hits, c, false, c, h1, Cache_PCA.lookup_update_zero (by rw [hsz, hz]) hh key F, ?_⟩
      simp [hd]
    · obtain ⟨b, c', h2, -, -, h3, -⟩ :=
        Cache_PCA.pca_lookup_update_spec (hinv hz) (by rw [hsz]; exact hz) F
      exact ⟨hits, c, b, c', h1, h2, by rw [h3, Cache_PCA.pca_mem_keys]⟩

/-- C2: for every key sequence and every capacity, `test_cache` returns on a fresh
`Cache_LFU` and on the `Cache_PCA` constructed from the sequence, and the number of hits
of the `Cache_PCA` is greater than or equal to the number of hits of the `Cache_LFU`. -/
theorem C2_pca_hits_ge_lfu_hits {K V : Type} [DecidableEq K] [Inhabited V] (cap : Nat)
    (key_seq : List K) :
    ∃ lfu_hits pca_hits,
      test_cache_LFU (Cache_LFU.new cap : Cache_LFU K V) key_seq = some lfu_hits ∧
      test_cache_PCA (Cache_PCA.new cap key_seq : Cache_PCA K V) key_seq = some pca_hits ∧
      lfu_hits ≤ pca_hits := by
  by_cases hz : cap = 0
  · subst hz
    exact ⟨0, 0, test_cache_LFU_zero rfl (fun _ => rfl) key_seq,
      test_cache_PCA_zero rfl (fun _ => rfl) key_seq, Nat.le_refl 0⟩
  · obtain ⟨rA, rB, h1, h2, h3⟩ := dominates_run (V := V) key_seq 0 (Cache_LFU.new cap)
      (Cache_PCA.new cap key_seq) 0 0 (Cache_LFU.lfu_new_inv cap) (Cache_PCA.pca_new_inv cap key_seq)
      rfl hz (by intro t; simp [Cache_LFU.new, Cache_PCA.new, Cache_LFU.keys, Cache_PCA.keys])
    exact ⟨rA, rB, h1, h2, by omega⟩

/-- C3: for both engines, after any sequence of `lookup_update` calls on a freshly
constructed cache (for `Cache_PCA`: the calls replay a part of the construction trace)
the calls return and `size() <= max_size()` holds. -/
theorem C3_size_le_max_size {K V : Type} [DecidableEq K] (cap : Nat)
    (calls : List (K × (K → V))) (rest : List K) :
    (∃ hits c, (Cache_LFU.new cap : Cache_LFU K V).replay calls = some (hits, c) ∧
      c.size ≤ c.max_size) ∧
    (∃ hits c,
      (Cache_PCA.new cap (calls.map Prod.fst ++ rest) : Cache_PCA K V).replay calls
        = some (hits, c) ∧
      c.size ≤ c.max_size) := by
  constructor
  · obtain ⟨hits, c, h1, hinv, -⟩ :=
      Cache_LFU.lfu_replay_spec calls (Cache_LFU.lfu_new_inv (K := K) (V := V) cap)
    exact ⟨hits, c, h1, hinv.size_le⟩
  · obtain ⟨hits, c, h1, -, hst, -⟩ := Cache_PCA.replay_new (V := V) cap calls rest
    exact ⟨hits, c, h1, hst.size_le⟩

/-- C4 (failing input): with capacity 2 the calls A, B, A, C return
false, false, true, false, and the entries left are C and B: the miss on C evicts A,
which has been hit once, although B has never been hit. -/
theorem C4_lfu_evicts_hit_entry :
    ((Cache_LFU.new 2 : Cache_LFU Char Unit).replay (unit_calls ['A', 'B', 'A', 'C'])).map
      (fun r => (r.1, r.2.keys)) = some ([false, false, true, false], ['C', 'B']) := by
  decide

/-- C5 (counterexample): with capacity 1 and trace A, the call on A misses, A does not
occur again, and A is resident (and on the no-future stack) afterwards. -/
theorem C5_counterexample :
    ((Cache_PCA.new 1 ['A'] : Cache_PCA Char Unit).lookup_update 'A' (fun _ => ())).map
      (fun r => (r.1, r.2.keys, r.2.redundant_)) = some (false, ['A'], [0]) := by
  decide

/-- C5 (amended): with capacity at least 1, when the call on the next key of the
construction trace misses and the key does not occur again later in the trace, the
call returns false; if the store is full the store is unchanged and the key is not
resident afterwards; if the store is not full the key is inserted and the handle of
its entry is on the no-future stack. -/
theorem C5_no_future_miss {K V : Type} [DecidableEq K] (cap : Nat) (hcap : 1 ≤ cap)
    (pre : List (K × (K → V))) (key : K) (F : K → V) (post : List K) (hno : key ∉ post) :
    ∃ hits c b c',
      (Cache_PCA.new cap (pre.map Prod.fst ++ key :: post) : Cache_PCA K V).replay pre
        = some (hits, c) ∧
      c.lookup_update key F = some (b, c') ∧
      (key ∉ c.keys →
        b = false ∧
        (c.full = true → c'.data_ = c.data_ ∧ key ∉ c'.keys) ∧
        (c.full = false →
          c'.data_ = (c.alloc_, ⟨key, F key⟩) :: c.data_ ∧ c.alloc_ ∈ c'.redundant_)) := by
  have hz : cap ≠ 0 := by omega
  obtain ⟨hits, c, h1, hsz, -, hinv, -⟩ := Cache_PCA.replay_new (V := V) cap pre (key :: post)
  obtain ⟨b, c', h2, hinv', -, h4, -, h6, h7, -⟩ :=
    Cache_PCA.pca_lookup_update_spec (hinv hz) (by rw [hsz]; exact hz) F
  have hnu : next_use key post (pre.length + 1) = none := next_use_eq_none.2 hno
  refine ⟨hits, c, b, c', h1, h2, fun hnotin => ⟨?_, ?_, ?_⟩⟩
  · cases b with
    | false => rfl
    | true => exact absurd (h4.1 rfl) hnotin
  · intro hfull
    have hd := h7 hnotin ((Cache_PCA.full_iff c).1 hfull) hnu
    refine ⟨hd, ?_⟩
    simpa [Cache_PCA.keys, hd] using hnotin
  · intro hfull
    have hne : c.data_.length ≠ c.size_ := by
      intro hc; rw [(Cache_PCA.full_iff c).2 hc] at hfull; exact absurd hfull (by simp)
    have hd := h6 hnotin hne
    refine ⟨hd, ?_⟩
    exact (hinv'.aux.red_mem c.alloc_).2
      ⟨(c.alloc_, ⟨key, F key⟩), by rw [hd]; exact List.mem_cons_self _ _, rfl, hnu⟩

/-- Witness of C5 (amended): capacity 1, trace A, B; the call on B misses on the full
store and is declined. -/
theorem C5_no_future_miss_witness :
    1 ≤ 1 ∧ 'B' ∉ ([] : List Char) ∧
    (((Cache_PCA.new 1 ((unit_calls ['A']).map Prod.fst ++ 'B' :: []) :
        Cache_PCA Char Unit).replay (unit_calls ['A'])).bind
      (fun r => (r.2.lookup_update 'B' (fun _ => ())).map
        (fun r' => (r.2.keys, r.2.full, r'.1, r'.2.keys)))
      = some (['A'], true, false, ['A'])) ∧
    ∃ hits c b c',
      (Cache_PCA.new 1 ((unit_calls ['A']).map Prod.fst ++ 'B' :: []) :
        Cache_PCA Char Unit).replay (unit_calls ['A']) = some (hits, c) ∧
      c.lookup_update 'B' (fun _ => ()) = some (b, c') ∧
      ('B' ∉ c.keys →
        b = false ∧
        (c.full = true → c'.data_ = c.data_ ∧ 'B' ∉ c'.keys) ∧
        (c.full = false →
          c'.data_ = (c.alloc_, ⟨'B', ()⟩) :: c.data_ ∧ c.alloc_ ∈ c'.redundant_)) :=
  ⟨by decide, by decide, by decide,
    C5_no_future_miss 1 (by decide) (unit_calls ['A']) 'B' (fun _ => ()) [] (by decide)⟩

/-- C6: with capacity at least 1, a call on the next key of the construction trace
that misses on a full store returns false, and it leaves the store unchanged exactly
when the key does not occur again later in the trace, or every resident occurs again
and the next position of the key is greater than or equal to the next position of every
resident; in all other cases the key is resident afterwards. -/
theorem C6_declined_iff {K V : Type} [DecidableEq K] (cap : Nat) (hcap : 1 ≤ cap)
    (pre : List (K × (K → V))) (key : K) (F : K → V) (post : List K) :
    ∃ hits c b c',
      (Cache_PCA.new cap (pre.map Prod.fst ++ key :: post) : Cache_PCA K V).replay pre
        = some (hits, c) ∧
      c.lookup_update key F = some (b, c') ∧
      (key ∉ c.keys → c.full = true →
        b = false ∧
        (c'.keys = c.keys ↔ no_sooner_than_residents key post (pre.length + 1) c.keys) ∧
        (no_sooner_than_residents key post (pre.length + 1) c.keys → c'.data_ = c.data_) ∧
        (¬ no_sooner_than_residents key post (pre.length + 1) c.keys → key ∈ c'.keys)) := by
  have hz : cap ≠ 0 := by omega
  obtain ⟨hits, c, h1, hsz, -, hinv, -⟩ := Cache_PCA.replay_new (V := V) cap pre (key :: post)
  by_cases hmiss : key ∉ c.keys ∧ c.full = true
  · obtain ⟨hnotin, hfull⟩ := hmiss
    obtain ⟨c', h2, -, -, hcases⟩ := Cache_PCA.full_miss_cases (hinv hz) (by rw [hsz]; exact hz) F
      hnotin ((Cache_PCA.full_iff c).1 hfull)
    refine ⟨hits, c, false, c', h1, h2, fun _ _ => ⟨rfl, ?_⟩⟩
    have hkey : ∀ a v l, c'.data_ = (a, ⟨key, v⟩) :: l → c'.keys ≠ c.keys := by
      intro a v l hd hc
      apply hnotin
      rw [← hc]
      exact Cache_PCA.pca_mem_keys_of_data_cons hd
    rcases hcases with ⟨hnu, hd⟩ | ⟨j, v, hnu, hv, hvn, hd⟩ | ⟨j, hnu, hall, hd⟩ |
      ⟨j, v, mv, hnu, hv, hvn, hlt, hall, hd⟩
    · have hcond : no_sooner_than_residents key post (pre.length + 1) c.keys :=
        Or.inl (next_use_eq_none.1 hnu)
      refine ⟨⟨fun _ => hcond, fun _ => by simp [Cache_PCA.keys, hd]⟩, fun _ => hd,
        fun hc => absurd hcond hc⟩
    · have hcond : ¬ no_sooner_than_residents key post (pre.length + 1) c.keys := by
        rintro (hc | ⟨jk, -, hc⟩)
        · rw [← next_use_eq_none (i := pre.length + 1), hnu] at hc; simp at hc
        · obtain ⟨jr, hjr, -⟩ := hc v.2.key (Cache_PCA.pca_mem_keys.2 ⟨v, hv, rfl⟩)
          rw [hvn] at hjr; simp at hjr
      refine ⟨⟨fun hc => absurd hc (hkey _ _ _ hd), fun hc => absurd hc hcond⟩,
        fun hc => absurd hc hcond, fun _ => Cache_PCA.pca_mem_keys_of_data_cons hd⟩
    · have hcond : no_sooner_than_residents key post (pre.length + 1) c.keys := by
        right
        refine ⟨j, hnu, ?_⟩
        intro r hr
        obtain ⟨n, hn, rfl⟩ := Cache_PCA.pca_mem_keys.1 hr
        exact hall n hn
      refine ⟨⟨fun _ => hcond, fun _ => by simp [Cache_PCA.keys, hd]⟩, fun _ => hd,
        fun hc => absurd hcond hc⟩
    · have hcond : ¬ no_sooner_than_residents key post (pre.length + 1) c.keys := by
        rintro (hc | ⟨jk, hjk, hc⟩)
        · rw [← next_use_eq_none (i := pre.length + 1), hnu] at hc; simp at hc
        · obtain ⟨jr, hjr, hle⟩ := hc v.2.key (Cache_PCA.pca_mem_keys.2 ⟨v, hv, rfl⟩)
          rw [hvn] at hjr
          rw [hnu] at hjk
          simp only [Option.some.injEq] at hjr hjk
          omega
      refine ⟨⟨fun hc => absurd hc (hkey _ _ _ hd), fun hc => absurd hc hcond⟩,
        fun hc => absurd hc hcond, fun _ => Cache_PCA.pca_mem_keys_of_data_cons hd⟩
  · obtain ⟨b, c', h2, -⟩ := Cache_PCA.pca_lookup_update_spec (hinv hz) (by rw [hsz]; exact hz) F
    refine ⟨hits, c, b, c', h1, h2, fun ha hb => absurd ⟨ha, hb⟩ hmiss⟩

/-- Witness of C6: capacity 1, trace A, B, A gives the results false, false, true; the
call on B misses on the full store, B does not occur again, and it is declined. -/
theorem C6_declined_iff_witness :
    1 ≤ 1 ∧
    (((Cache_PCA.new 1 ['A', 'B', 'A'] : Cache_PCA Char Unit).replay
        (unit_calls ['A', 'B', 'A'])).map (fun r => (r.1, r.2.keys))
      = some ([false, false, true], ['A'])) ∧
    (((Cache_PCA.new 1 ((unit_calls ['A']).map Prod.fst ++ 'B' :: ['A']) :
        Cache_PCA Char Unit).replay (unit_calls ['A'])).bind
      (fun r => (r.2.lookup_update 'B' (fun _ => ())).map
        (fun r' => (r.2.keys, r.2.full, r'.1, r'.2.keys)))
      = some (['A'], true, false, ['A'])) ∧
    ∃ hits c b c',
      (Cache_PCA.new 1 ((unit_calls ['A']).map Prod.fst ++ 'B' :: ['A']) :
        Cache_PCA Char Unit).replay (unit_calls ['A']) = some (hits, c) ∧
      c.lookup_update 'B' (fun _ => ()) = some (b, c') ∧
      ('B' ∉ c.keys → c.full = true →
        b = false ∧
        (c'.keys = c.keys ↔
          no_sooner_than_residents 'B' ['A'] ((unit_calls ['A']).length + 1) c.keys) ∧
        (no_sooner_than_residents 'B' ['A'] ((unit_calls ['A']).length + 1) c.keys →
          c'.data_ = c.data_) ∧
        (¬ no_sooner_than_residents 'B' ['A'] ((unit_calls ['A']).length + 1) c.keys →
          'B' ∈ c'.keys)) :=
  ⟨by decide, by decide, by decide,
    C6_declined_iff 1 (by decide) (unit_calls ['A']) 'B' (fun _ => ()) ['A']⟩

/-- C7: with capacity at least 1, when a call on the next key of the construction
trace misses on a full store and the key is resident afterwards, exactly one resident
`victim` has been removed (the others stay, the new entry is added in front); the
victim does not occur again in the trace if some resident does not, and otherwise its
next position is the greatest among the residents. -/
theorem C7_evicts_farthest {K V : Type} [DecidableEq K] (cap : Nat) (hcap : 1 ≤ cap)
    (pre : List (K × (K → V))) (key : K) (F : K → V) (post : List K) :
    ∃ hits c b c',
      (Cache_PCA.new cap (pre.map Prod.fst ++ key :: post) : Cache_PCA K V).replay pre
        = some (hits, c) ∧
      c.lookup_update key F = some (b, c') ∧
      (key ∉ c.keys → c.full = true → key ∈ c'.keys →
        ∃ victim others, c.data_.Perm (victim :: others) ∧
          c'.data_ = (c.alloc_, ⟨key, F key⟩) :: others ∧
          ((∃ r ∈ c.keys, r ∉ post) → victim.2.key ∉ post) ∧
          ((∀ r ∈ c.keys, r ∈ post) →
            ∃ jv, next_use victim.2.key post (pre.length + 1) = some jv ∧
              ∀ r ∈ c.keys, ∃ jr, next_use r post (pre.length + 1) = some jr ∧ jr ≤ jv)) := by
  have hz : cap ≠ 0 := by omega
  obtain ⟨hits, c, h1, hsz, -, hinv, -⟩ := Cache_PCA.replay_new (V := V) cap pre (key :: post)
  by_cases hmiss : key ∉ c.keys ∧ c.full = true
  · obtain ⟨hnotin, hfull⟩ := hmiss
    obtain ⟨c', h2, -, -, hcases⟩ := Cache_PCA.full_miss_cases (hinv hz) (by rw [hsz]; exact hz) F
      hnotin ((Cache_PCA.full_iff c).1 hfull)
    refine ⟨hits, c, false, c', h1, h2, fun _ _ hin => ?_⟩
    have hnd := (hinv hz).store.handles_nodup
    rcases hcases with ⟨hnu, hd⟩ | ⟨j, v, hnu, hv, hvn, hd⟩ | ⟨j, hnu, hall, hd⟩ |
      ⟨j, v, mv, hnu, hv, hvn, hlt, hall, hd⟩
    · exact absurd hin (Cache_PCA.not_mem_keys_of_data_eq hd hnotin)
    · refine ⟨v, list_erase c.data_ v.1, list_erase_perm hnd hv, hd,
        fun _ => next_use_eq_none.1 hvn, fun hc => ?_⟩
      exact absurd (hc v.2.key (Cache_PCA.pca_mem_keys.2 ⟨v, hv, rfl⟩)) (next_use_eq_none.1 hvn)
    · exact absurd hin (Cache_PCA.not_mem_keys_of_data_eq hd hnotin)
    · refine ⟨v, list_erase c.data_ v.1, list_erase_perm hnd hv, hd, ?_, fun _ => ?_⟩
      · rintro ⟨r, hr, hr2⟩
        obtain ⟨n, hn, rfl⟩ := Cache_PCA.pca_mem_keys.1 hr
        obtain ⟨m, hm, -⟩ := hall n hn
        rw [next_use_eq_none.2 hr2] at hm
        simp at hm
      · refine ⟨mv, hvn, ?_⟩
        intro r hr
        obtain ⟨n, hn, rfl⟩ := Cache_PCA.pca_mem_keys.1 hr
        exact hall n hn
  · obtain ⟨b, c', h2, -⟩ := Cache_PCA.pca_lookup_update_spec (hinv hz) (by rw [hsz]; exact hz) F
    refine ⟨hits, c, b, c', h1, h2, fun ha hb => absurd ⟨ha, hb⟩ hmiss⟩

/-- Witness of C7: capacity 2, trace A, B, C, A, C; the call on C misses on the full
store, B is not used again and is the one evicted.  With the trace A, B, C, C, A, B the
stack is empty at the call on C, both residents are used again, and B, used last (at
position 5), is the one evicted. -/
theorem C7_evicts_farthest_witness :
    1 ≤ 2 ∧
    (((Cache_PCA.new 2 ((unit_calls ['A', 'B']).map Prod.fst ++ 'C' :: ['A', 'C']) :
        Cache_PCA Char Unit).replay (unit_calls ['A', 'B'])).bind
      (fun r => (r.2.lookup_update 'C' (fun _ => ())).map
        (fun r' => (r.2.keys, r.2.full, r'.1, r'.2.keys)))
      = some (['B', 'A'], true, false, ['C', 'A'])) ∧
    (((Cache_PCA.new 2 ((unit_calls ['A', 'B']).map Prod.fst ++ 'C' :: ['C', 'A', 'B']) :
        Cache_PCA Char Unit).replay (unit_calls ['A', 'B'])).bind
      (fun r => (r.2.lookup_update 'C' (fun _ => ())).map
        (fun r' => (r.2.keys, r.2.redundant_, r.2.data_fidx_, r.2.full, r'.1, r'.2.keys)))
      = some (['B', 'A'], [], [⟨1, 5⟩, ⟨0, 4⟩], true, false, ['C', 'A'])) ∧
    ∃ hits c b c',
      (Cache_PCA.new 2 ((unit_calls ['A', 'B']).map Prod.fst ++ 'C' :: ['A', 'C']) :
        Cache_PCA Char Unit).replay (unit_calls ['A', 'B']) = some (hits, c) ∧
      c.lookup_update 'C' (fun _ => ()) = some (b, c') ∧
      ('C' ∉ c.keys → c.full = true → 'C' ∈ c'.keys →
        ∃ victim others, c.data_.Perm (victim :: others) ∧
          c'.data_ = (c.alloc_, ⟨'C', ()⟩) :: others ∧
          ((∃ r ∈ c.keys, r ∉ ['A', 'C']) → victim.2.key ∉ ['A', 'C']) ∧
          ((∀ r ∈ c.keys, r ∈ ['A', 'C']) →
            ∃ jv, next_use victim.2.key ['A', 'C'] ((unit_calls ['A', 'B']).length + 1)
                = some jv ∧
              ∀ r ∈ c.keys, ∃ jr,
                next_use r ['A', 'C'] ((unit_calls ['A', 'B']).length + 1) = some jr ∧
                jr ≤ jv)) :=
  ⟨by decide, by decide, by rfl,
    C7_evicts_farthest 2 (by decide) (unit_calls ['A', 'B']) 'C' (fun _ => ()) ['A', 'C']⟩

/-- C8: for both engines constructed with capacity 0 (the `Cache_PCA` from any key
sequence), every call of any sequence of `lookup_update` calls returns false and
`size()` is 0 afterwards. -/
theorem C8_capacity_zero {K V : Type} [DecidableEq K] (calls : List (K × (K → V)))
    (key_seq : List K) :
    (∃ c, (Cache_LFU.new 0 : Cache_LFU K V).replay calls
        = some (List.replicate calls.length false, c) ∧ c.size = 0) ∧
    (∃ c, (Cache_PCA.new 0 key_seq : Cache_PCA K V).replay calls
        = some (List.replicate calls.length false, c) ∧ c.size = 0) :=
  ⟨⟨_, Cache_LFU.lfu_replay_zero rfl (fun _ => rfl) calls, rfl⟩,
   ⟨_, Cache_PCA.pca_replay_zero rfl (fun _ => rfl) calls, rfl⟩⟩

/-- C9: in a `Cache_LFU` of capacity at least 1 reached from a fresh cache by the calls
`pre`, a call `lookup_update(key, F)` that misses leaves `key` resident with value
`F(key)`; when the store was not full the new entry is added in front and `size()`
grows by one; when it was full, one resident `victim` (with another key) is removed,
all the others stay, and `size()` is unchanged. -/
theorem C9_lfu_miss_inserts {K V : Type} [DecidableEq K] (cap : Nat) (hcap : 1 ≤ cap)
    (pre : List (K × (K → V))) (key : K) (F : K → V) :
    ∃ hits c b c', (Cache_LFU.new cap : Cache_LFU K V).replay pre = some (hits, c) ∧
      c.lookup_update key F = some (b, c') ∧
      (b = false →
        (∃ n ∈ c'.data_, n.2.key = key ∧ n.2.value = F key) ∧
        (c.full = false →
          c'.data_ = (c.alloc_, ⟨key, F key⟩) :: c.data_ ∧ c'.size = c.size + 1) ∧
        (c.full = true →
          ∃ victim others, c.data_.Perm (victim :: others) ∧ victim.2.key ≠ key ∧
            c'.data_ = (c.alloc_, ⟨key, F key⟩) :: others ∧ c'.size = c.size)) := by
  obtain ⟨hits, c, h1, hinv, hsz⟩ :=
    Cache_LFU.lfu_replay_spec pre (Cache_LFU.lfu_new_inv (K := K) (V := V) cap)
  have hz : c.size_ ≠ 0 := by
    rw [hsz]; simp only [Cache_LFU.new]; omega
  obtain ⟨b, c', h2, -, -, h3, -, -, h6, h7⟩ := Cache_LFU.lfu_lookup_update_spec hinv key F
  refine ⟨hits, c, b, c', h1, h2, fun hb => ?_⟩
  have hnotin : key ∉ c.keys := by
    intro hc; rw [← h3, hb] at hc; exact absurd hc (by simp)
  by_cases hfull : c.data_.length = c.size_
  · obtain ⟨rec, -, ⟨n, hn, hn1⟩, hd⟩ := h7 hb hz hfull
    have hperm : c.data_.Perm (n :: list_erase c.data_ rec.iter) := by
      rw [← hn1]; exact list_erase_perm hinv.wf.handles_nodup hn
    refine ⟨⟨_, by rw [hd]; exact List.mem_cons_self _ _, rfl, rfl⟩, ?_, ?_⟩
    · intro hc; simp [Cache_LFU.full, hfull] at hc
    · intro _
      refine ⟨n, list_erase c.data_ rec.iter, hperm, ?_, hd, ?_⟩
      · intro hc; exact hnotin (Cache_LFU.lfu_mem_keys.2 ⟨n, hn, hc⟩)
      · have := hperm.length_eq
        simp only [Cache_LFU.size, hd, List.length_cons] at this ⊢
        omega
  · have hd := h6 hb hz hfull
    refine ⟨⟨_, by rw [hd]; exact List.mem_cons_self _ _, rfl, rfl⟩, ?_, ?_⟩
    · intro _; exact ⟨hd, by simp [Cache_LFU.size, hd]⟩
    · intro hc; simp [Cache_LFU.full, hfull] at hc

/-- Witness of C9: capacity 1, after the call on A the call on B misses on the full
store; A is removed and B is the entry left. -/
theorem C9_lfu_miss_inserts_witness :
    1 ≤ 1 ∧
    (((Cache_LFU.new 1 : Cache_LFU Char Unit).replay (unit_calls ['A'])).bind
      (fun r => (r.2.lookup_update 'B' (fun _ => ())).map
        (fun r' => (r.2.keys, r.2.full, r'.1, r'.2.keys)))
      = some (['A'], true, false, ['B'])) ∧
    ∃ hits c b c',
      (Cache_LFU.new 1 : Cache_LFU Char Unit).replay (unit_calls ['A']) = some (hits, c) ∧
      c.lookup_update 'B' (fun _ => ()) = some (b, c') ∧
      (b = false →
        (∃ n ∈ c'.data_, n.2.key = 'B' ∧ n.2.value = ()) ∧
        (c.full = false →
          c'.data_ = (c.alloc_, ⟨'B', ()⟩) :: c.data_ ∧ c'.size = c.size + 1) ∧
        (c.full = true →
          ∃ victim others, c.data_.Perm (victim :: others) ∧ victim.2.key ≠ 'B' ∧
            c'.data_ = (c.alloc_, ⟨'B', ()⟩) :: others ∧ c'.size = c.size)) :=
  ⟨by decide, by decide,
    C9_lfu_miss_inserts 1 (by decide) (unit_calls ['A']) 'B' (fun _ => ())⟩

/-- C10 (failing input): after one call on a `Cache_LFU` of capacity 1, `clear()` leaves
the record of the cleared entry in `elem_search_set_`, while `data_` is empty. -/
theorem C10_lfu_clear_keeps_selector :
    ((Cache_LFU.new 1 : Cache_LFU Char Unit).replay (unit_calls ['A'])).map
      (fun r => (r.2.clear.data_.length, r.2.clear.elem_search_set_))
      = some (0, [⟨0, 0⟩]) := by
  decide

/-- C12: for both engines, in a state reached from a freshly constructed cache (for
`Cache_PCA`: by replaying a part of the construction trace), a call that hits leaves
`data_` as it is, with the same `size()`, and returns the same result for every value
producer; the same holds for a call on a `Cache_PCA` that misses and leaves the key not
resident (a declined insertion). -/
theorem C12_hit_or_declined_keeps_store {K V : Type} [DecidableEq K] (cap : Nat)
    (pre : List (K × (K → V))) (key : K) (F : K → V) (post : List K) :
    (∃ hits c b c', (Cache_LFU.new cap : Cache_LFU K V).replay pre = some (hits, c) ∧
      c.lookup_update key F = some (b, c') ∧
      (b = true → c'.data_ = c.data_ ∧ c'.size = c.size ∧
        ∀ G, c.lookup_update key G = some (b, c'))) ∧
    (∃ hits c b c',
      (Cache_PCA.new cap (pre.map Prod.fst ++ key :: post) : Cache_PCA K V).replay pre
        = some (hits, c) ∧
      c.lookup_update key F = some (b, c') ∧
      (b = true → c'.data_ = c.data_ ∧ c'.size = c.size ∧
        ∀ G, c.lookup_update key G = some (b, c')) ∧
      (b = false → key ∉ c'.keys → c'.data_ = c.data_ ∧ c'.size = c.size ∧
        ∀ G, c.lookup_update key G = some (b, c'))) := by
  constructor
  · obtain ⟨hits, c, h1, hinv, -⟩ :=
      Cache_LFU.lfu_replay_spec pre (Cache_LFU.lfu_new_inv (K := K) (V := V) cap)
    obtain ⟨b, c', h2, -, -, h3, h4, -⟩ := Cache_LFU.lfu_lookup_update_spec hinv key F
    refine ⟨hits, c, b, c', h1, h2, fun hb => ?_⟩
    have hd := h4 hb
    refine ⟨hd, by simp [Cache_LFU.size, hd], fun G => ?_⟩
    have hin := (Cache_LFU.lfu_hash_isSome_iff hinv.wf key).2 (h3.1 hb)
    obtain ⟨hit, hhit⟩ := Option.isSome_iff_exists.1 hin
    rw [← h2]
    exact Cache_LFU.lfu_hit_indep hhit G F
  · obtain ⟨hits, c, h1, hsz, hst, hinv, hzero⟩ :=
      Cache_PCA.replay_new (V := V) cap pre (key :: post)
    have hex : ∃ b c', c.lookup_update key F = some (b, c') ∧ (b = true ↔ key ∈ c.keys) ∧
        (b = true → c'.data_ = c.data_) := by
      by_cases hz : cap = 0
      · obtain ⟨hd, hh⟩ := hzero hz
        refine ⟨false, c, Cache_PCA.lookup_update_zero (by rw [hsz, hz]) hh key F, ?_,
          fun _ => rfl⟩
        simp [Cache_PCA.keys, hd]
      · obtain ⟨b, c', h2, -, -, h3, h4, -⟩ :=
          Cache_PCA.pca_lookup_update_spec (hinv hz) (by rw [hsz]; exact hz) F
        exact ⟨b, c', h2, h3, fun hb => h4 (h3.1 hb)⟩
    obtain ⟨b, c', h2, h3, h4⟩ := hex
    refine ⟨hits, c, b, c', h1, h2, fun hb => ?_, fun hb hnot => ?_⟩
    · have hd := h4 hb
      refine ⟨hd, by simp [Cache_PCA.size, hd], fun G => ?_⟩
      have hin := (Cache_PCA.pca_hash_isSome_iff hst key).2 (h3.1 hb)
      obtain ⟨hit, hhit⟩ := Option.isSome_iff_exists.1 hin
      rw [← h2]
      exact Cache_PCA.pca_hit_indep hhit G F
    · subst hb
      have hd := (Cache_PCA.pca_declined_indep h2 hnot F).2
      exact ⟨hd, by simp [Cache_PCA.size, hd],
        fun G => (Cache_PCA.pca_declined_indep h2 hnot G).1⟩

/-- Witness of C12: capacity 1, after the call on A the call on A hits in both engines
(trace A, A for the `Cache_PCA`); with the trace A, B, A the call on B is declined. -/
theorem C12_hit_or_declined_keeps_store_witness :
    (((Cache_LFU.new 1 : Cache_LFU Char Unit).replay (unit_calls ['A'])).bind
      (fun r => (r.2.lookup_update 'A' (fun _ => ())).map
        (fun r' => (r.2.keys, r'.1, r'.2.keys)))
      = some (['A'], true, ['A'])) ∧
    (((Cache_PCA.new 1 ['A', 'B', 'A'] : Cache_PCA Char Unit).replay (unit_calls ['A'])).bind
      (fun r => (r.2.lookup_update 'B' (fun _ => ())).map
        (fun r' => (r.2.keys, r'.1, r'.2.keys)))
      = some (['A'], false, ['A'])) ∧
    (∃ hits c b c', (Cache_LFU.new 1 : Cache_LFU Char Unit).replay (unit_calls ['A'])
        = some (hits, c) ∧
      c.lookup_update 'A' (fun _ => ()) = some (b, c') ∧
      (b = true → c'.data_ = c.data_ ∧ c'.size = c.size ∧
        ∀ G, c.lookup_update 'A' G = some (b, c'))) ∧
    (∃ hits c b c',
      (Cache_PCA.new 1 ((unit_calls ['A']).map Prod.fst ++ 'A' :: []) :
        Cache_PCA Char Unit).replay (unit_calls ['A']) = some (hits, c) ∧
      c.lookup_update 'A' (fun _ => ()) = some (b, c') ∧
      (b = true → c'.data_ = c.data_ ∧ c'.size = c.size ∧
        ∀ G, c.lookup_update 'A' G = some (b, c')) ∧
      (b = false → 'A' ∉ c'.keys → c'.data_ = c.data_ ∧ c'.size = c.size ∧
        ∀ G, c.lookup_update 'A' G = some (b, c'))) :=
  ⟨by decide, by decide,
    C12_hit_or_declined_keeps_store 1 (unit_calls ['A']) 'A' (fun _ => ()) []⟩

/-- C13 (failing input): with capacity 1 the calls A, A, A return false, true, true;
after the two hits on A the only record of `elem_search_set_` is the one of the entry of
A, with counter 1. -/
theorem C13_lfu_counter_stops_at_one :
    ((Cache_LFU.new 1 : Cache_LFU Char Unit).replay (unit_calls ['A', 'A', 'A'])).map
      (fun r => (r.1, r.2.data_.map (fun n => (n.1, n.2.key)), r.2.elem_search_set_))
      = some ([false, true, true], [(0, 'A')], [⟨0, 1⟩]) := by
  decide

/-- C14 (failing input): with capacity 2, after the calls A, B the store holds two entries
and `elem_search_set_` one record, that of the entry of A; no record refers to the entry
of B. -/
theorem C14_lfu_selector_misses_entry :
    ((Cache_LFU.new 2 : Cache_LFU Char Unit).replay (unit_calls ['A', 'B'])).map
      (fun r => (r.2.size, r.2.data_.map (fun n => (n.1, n.2.key)), r.2.elem_search_set_))
      = some (2, [(1, 'B'), (0, 'A')], [⟨0, 0⟩]) := by
  decide

/-- C15: for both engines, after any sequence of `lookup_update` calls on a freshly
constructed cache (for `Cache_PCA`: the calls replay a part of the construction trace), a
key is in `hash_table_` exactly when an entry with that key is in `data_`, and no two
entries of `data_` have the same key. -/
theorem C15_index_matches_store {K V : Type} [DecidableEq K] (cap : Nat)
    (calls : List (K × (K → V))) (rest : List K) :
    (∃ hits c, (Cache_LFU.new cap : Cache_LFU K V).replay calls = some (hits, c) ∧
      (∀ k, (c.hash_table_ k).isSome = true ↔ ∃ n ∈ c.data_, n.2.key = k) ∧
      (c.data_.map (fun n => n.2.key)).Nodup) ∧
    (∃ hits c,
      (Cache_PCA.new cap (calls.map Prod.fst ++ rest) : Cache_PCA K V).replay calls
        = some (hits, c) ∧
      (∀ k, (c.hash_table_ k).isSome = true ↔ ∃ n ∈ c.data_, n.2.key = k) ∧
      (c.data_.map (fun n => n.2.key)).Nodup) := by
  constructor
  · obtain ⟨hits, c, h1, hinv, -⟩ :=
      Cache_LFU.lfu_replay_spec calls (Cache_LFU.lfu_new_inv (K := K) (V := V) cap)
    refine ⟨hits, c, h1, fun k => ?_, hinv.wf.keys_nodup⟩
    rw [Cache_LFU.lfu_hash_isSome_iff hinv.wf, Cache_LFU.lfu_mem_keys]
  · obtain ⟨hits, c, h1, -, hst, -⟩ := Cache_PCA.replay_new (V := V) cap calls rest
    refine ⟨hits, c, h1, fun k => ?_, hst.keys_nodup⟩
    rw [Cache_PCA.pca_hash_isSome_iff hst, Cache_PCA.pca_mem_keys]

/-- C16: in a `Cache_PCA` of capacity at least 1, after the calls `pre` that replay the
first keys of the construction trace (any number of them), every entry of `data_` is
referred to exactly once by the records of `data_fidx_` and the handles on `redundant_`
together; the index of each record is the smallest position, at or after the number of
keys replayed, at which the key of its entry occurs in the trace; and the key of each
entry on the stack occurs at no such position. -/
theorem C16_selector_and_stack {K V : Type} [DecidableEq K] (cap : Nat) (hcap : 1 ≤ cap)
    (pre : List (K × (K → V))) (post : List K) :
    ∃ hits c,
      (Cache_PCA.new cap (pre.map Prod.fst ++ post) : Cache_PCA K V).replay pre
        = some (hits, c) ∧
      (∀ n ∈ c.data_,
        c.data_fidx_.countP (fun r => decide (r.iter = n.1)) + c.redundant_.count n.1 = 1) ∧
      (∀ r ∈ c.data_fidx_, ∃ n ∈ c.data_, n.1 = r.iter ∧
        is_next_occurrence (pre.map Prod.fst ++ post) pre.length n.2.key r.index) ∧
      (∀ it ∈ c.redundant_, ∃ n ∈ c.data_, n.1 = it ∧
        no_occurrence_from (pre.map Prod.fst ++ post) pre.length n.2.key) := by
  have hz : cap ≠ 0 := by omega
  obtain ⟨hits, c, h1, -, -, hinv, -⟩ := Cache_PCA.replay_new (V := V) cap pre post
  have h := hinv hz
  have hlen : (pre.map Prod.fst).length = pre.length := List.length_map _ _
  refine ⟨hits, c, h1, fun n hn => Cache_PCA.held_once h.aux h.store.handles_nodup hn, ?_, ?_⟩
  · intro r hr
    obtain ⟨n, hn, hn1, hn2⟩ := (h.aux.sel_mem r).1 hr
    refine ⟨n, hn, hn1, ?_⟩
    rw [← hlen] at hn2 ⊢
    exact is_next_occurrence_of_next_use _ _ hn2
  · intro it hit
    obtain ⟨n, hn, hn1, hn2⟩ := (h.aux.red_mem it).1 hit
    refine ⟨n, hn, hn1, ?_⟩
    rw [← hlen] at hn2 ⊢
    exact no_occurrence_of_next_use _ _ hn2

/-- Witness of C16: capacity 2, trace A, B, C, A, C, after the calls on A and B: the
entry of A has the record with index 3 and the entry of B is on the stack. -/
theorem C16_selector_and_stack_witness :
    1 ≤ 2 ∧
    (((Cache_PCA.new 2 ((unit_calls ['A', 'B']).map Prod.fst ++ ['C', 'A', 'C']) :
        Cache_PCA Char Unit).replay (unit_calls ['A', 'B'])).map
      (fun r => (r.2.data_.map (fun n => (n.1, n.2.key)), r.2.data_fidx_, r.2.redundant_))
      = some ([(1, 'B'), (0, 'A')], [⟨0, 3⟩], [1])) ∧
    ∃ hits c,
      (Cache_PCA.new 2 ((unit_calls ['A', 'B']).map Prod.fst ++ ['C', 'A', 'C']) :
        Cache_PCA Char Unit).replay (unit_calls ['A', 'B']) = some (hits, c) ∧
      (∀ n ∈ c.data_,
        c.data_fidx_.countP (fun r => decide (r.iter = n.1)) + c.redundant_.count n.1 = 1) ∧
      (∀ r ∈ c.data_fidx_, ∃ n ∈ c.data_, n.1 = r.iter ∧
        is_next_occurrence ((unit_calls ['A', 'B']).map Prod.fst ++ ['C', 'A', 'C'])
          (unit_calls ['A', 'B']).length n.2.key r.index) ∧
      (∀ it ∈ c.redundant_, ∃ n ∈ c.data_, n.1 = it ∧
        no_occurrence_from ((unit_calls ['A', 'B']).map Prod.fst ++ ['C', 'A', 'C'])
          (unit_calls ['A', 'B']).length n.2.key) :=
  ⟨by decide, by decide,
    C16_selector_and_stack 2 (by decide) (unit_calls ['A', 'B']) ['C', 'A', 'C']⟩

/-- C17: right after construction from `key_seq`, for every capacity, `key_seq_fidx_`
holds for each key `k` of `key_seq` the list of all positions `i` with `key_seq[i] = k`
in strictly ascending order, and no queue for any other key. -/
theorem C17_constructor_builds_positions {K V : Type} [DecidableEq K] (cap : Nat)
    (key_seq : List K) (k : K) :
    (Cache_PCA.new cap key_seq : Cache_PCA K V).key_seq_fidx_ k =
        (if k ∈ key_seq then some (all_positions k key_seq) else none) ∧
      (all_positions k key_seq).Pairwise (fun a b => a < b) ∧
      ∀ i, i ∈ all_positions k key_seq ↔ key_seq[i]? = some k := by
  refine ⟨?_, all_positions_sorted k key_seq, mem_all_positions k key_seq⟩
  simp only [Cache_PCA.new]
  rw [Cache_PCA.fill_fidx_eq, positions_eq_filter]
  simp

/-- C18: in a `Cache_LFU` of capacity at least 1, in every state reached from a fresh
cache by `lookup_update` calls, `elem_search_set_` is not empty when `data_` is not, every
record refers to a node of `data_`, and no two records refer to the same node; when the
store is full, `erase_element(elem_search_set_.begin())` returns and removes exactly the
one node its record refers to. -/
theorem C18_lfu_eviction_is_safe {K V : Type} [DecidableEq K] (cap : Nat) (hcap : 1 ≤ cap)
    (calls : List (K × (K → V))) :
    ∃ hits c, (Cache_LFU.new cap : Cache_LFU K V).replay calls = some (hits, c) ∧
      (c.data_ ≠ [] → c.elem_search_set_ ≠ []) ∧
      (∀ r ∈ c.elem_search_set_, ∃ n ∈ c.data_, n.1 = r.iter) ∧
      (c.elem_search_set_.map Cache_LFU.set_elem_t.iter).Nodup ∧
      (c.full = true →
        ∃ rec c1 victim others, c.elem_search_set_.head? = some rec ∧ victim.1 = rec.iter ∧
          c.erase_element 0 = some c1 ∧ c.data_.Perm (victim :: others) ∧
          c1.data_ = others) := by
  obtain ⟨hits, c, h1, hinv, hsz⟩ :=
    Cache_LFU.lfu_replay_spec calls (Cache_LFU.lfu_new_inv (K := K) (V := V) cap)
  refine ⟨hits, c, h1, hinv.sel_nonempty, hinv.wf.sel_live, hinv.wf.sel_iter_nodup,
    fun hfull => ?_⟩
  have hlen : c.data_.length = c.size_ := by simpa [Cache_LFU.full] using hfull
  have hdne : c.data_ ≠ [] := by
    intro hnil
    rw [hnil, hsz] at hlen
    simp only [Cache_LFU.new, List.length_nil] at hlen
    omega
  obtain ⟨rec, rest, hs⟩ := List.exists_cons_of_ne_nil (hinv.sel_nonempty hdne)
  obtain ⟨c1, he, -, hd1, -, -, ⟨n, hn, hn1⟩, -⟩ := Cache_LFU.erase_element_wf hinv.wf hs
  refine ⟨rec, c1, n, list_erase c.data_ rec.iter, by simp [hs], hn1, he, ?_, hd1⟩
  rw [← hn1]
  exact list_erase_perm hinv.wf.handles_nodup hn

/-- Witness of C18: capacity 1, after the call on A the store is full and the eviction
removes the entry of A. -/
theorem C18_lfu_eviction_is_safe_witness :
    1 ≤ 1 ∧
    (((Cache_LFU.new 1 : Cache_LFU Char Unit).replay (unit_calls ['A'])).map
      (fun r => (r.2.full, r.2.keys, r.2.elem_search_set_,
        (r.2.erase_element 0).map (fun c1 => c1.keys)))
      = some (true, ['A'], [⟨0, 0⟩], some [])) ∧
    ∃ hits c, (Cache_LFU.new 1 : Cache_LFU Char Unit).replay (unit_calls ['A'])
        = some (hits, c) ∧
      (c.data_ ≠ [] → c.elem_search_set_ ≠ []) ∧
      (∀ r ∈ c.elem_search_set_, ∃ n ∈ c.data_, n.1 = r.iter) ∧
      (c.elem_search_set_.map Cache_LFU.set_elem_t.iter).Nodup ∧
      (c.full = true →
        ∃ rec c1 victim others, c.elem_search_set_.head? = some rec ∧ victim.1 = rec.iter ∧
          c.erase_element 0 = some c1 ∧ c.data_.Perm (victim :: others) ∧
          c1.data_ = others) :=
  ⟨by decide, by decide, C18_lfu_eviction_is_safe 1 (by decide) (unit_calls ['A'])⟩

/-- C19: in a `Cache_PCA` of capacity at least 1, after the calls `pre` that replay the
first keys of the construction trace, at the call on the next key `key`: the queue of
`key` is not empty and its front is the current position, so `get_elem_fidx` returns;
on a hit, the selector holds the record of the entry of `key` with that front as index,
and `hit_update_internals` returns; and in the state `free_space` works on, a full
store and an empty stack leave the selector not empty, so `farthest_elem()` refers to a
record. -/
theorem C19_queue_and_selector_nonempty {K V : Type} [DecidableEq K] (cap : Nat)
    (hcap : 1 ≤ cap) (pre : List (K × (K → V))) (key : K) (post : List K) :
    ∃ hits c,
      (Cache_PCA.new cap (pre.map Prod.fst ++ key :: post) : Cache_PCA K V).replay pre
        = some (hits, c) ∧
      (∃ rest, (c.key_seq_fidx_ key).getD [] = pre.length :: rest) ∧
      (∀ it, c.hash_table_ key = some it →
        (⟨it, pre.length⟩ : Cache_PCA.set_elem_t) ∈ c.data_fidx_ ∧
        ∃ c1, c.hit_update_internals key it = some c1) ∧
      (∃ fi c1, c.get_elem_fidx key = some (fi, c1) ∧
        (c1.full = true → c1.redundant_ = [] →
          ∃ far, c1.data_fidx_[c1.farthest_elem]? = some far)) := by
  have hz : cap ≠ 0 := by omega
  obtain ⟨hits, c, h1, hsz, -, hinv, -⟩ := Cache_PCA.replay_new (V := V) cap pre (key :: post)
  have h := hinv hz
  have hq := h.fidx key
  rw [positions_cons_self] at hq
  refine ⟨hits, c, h1, ⟨_, hq⟩, ?_, ?_⟩
  · intro it hit
    obtain ⟨n, hn, hn1, hn2⟩ := h.store.hash_some key it hit
    refine ⟨(h.aux.sel_mem ⟨it, pre.length⟩).2 ⟨n, hn, hn1, ?_⟩, ?_⟩
    · rw [hn2]; exact next_use_cons_self key post pre.length
    · obtain ⟨c', hl, -⟩ := Cache_PCA.lookup_update_hit h (fun _ => (n.2.value)) hit
      cases hh : c.hit_update_internals key it with
      | none => simp [Cache_PCA.lookup_update, hit, hh] at hl
      | some c1 => exact ⟨c1, rfl⟩
  · obtain ⟨fi, hget, -, -⟩ := Cache_PCA.get_elem_fidx_spec (c := c) h.fidx
    refine ⟨fi, _, hget, ?_⟩
    intro hfull hred
    have hlen : c.data_.length = c.size_ := by simpa [Cache_PCA.full] using hfull
    have hred' : c.redundant_ = [] := hred
    have hdne : c.data_ ≠ [] := by
      intro hnil
      rw [hnil, hsz] at hlen
      exact hz hlen.symm
    obtain ⟨n0, rest0, hd0⟩ := List.exists_cons_of_ne_nil hdne
    have hn0 : n0 ∈ c.data_ := by rw [hd0]; simp
    cases hnu0 : next_use n0.2.key (key :: post) pre.length with
    | none =>
      have := (h.aux.red_mem n0.1).2 ⟨n0, hn0, rfl, hnu0⟩
      rw [hred'] at this; simp at this
    | some m =>
      have hm := (h.aux.sel_mem ⟨n0.1, m⟩).2 ⟨n0, hn0, rfl, hnu0⟩
      show ∃ far, c.data_fidx_[0]? = some far
      cases hs : c.data_fidx_ with
      | nil => rw [hs] at hm; simp at hm
      | cons far rest => exact ⟨far, by simp⟩

/-- Witness of C19: capacity 1, trace A, B, A, B, after the call on A, at the call on B:
the queue of B is 1, 3, the store is full, the stack is empty and the selector holds
the record of A. -/
theorem C19_queue_and_selector_nonempty_witness :
    1 ≤ 1 ∧
    (((Cache_PCA.new 1 ((unit_calls ['A']).map Prod.fst ++ 'B' :: ['A', 'B']) :
        Cache_PCA Char Unit).replay (unit_calls ['A'])).map
      (fun r => (r.2.key_seq_fidx_ 'B', r.2.full, r.2.redundant_, r.2.data_fidx_))
      = some (some [1, 3], true, [], [⟨0, 2⟩])) ∧
    ∃ hits c,
      (Cache_PCA.new 1 ((unit_calls ['A']).map Prod.fst ++ 'B' :: ['A', 'B']) :
        Cache_PCA Char Unit).replay (unit_calls ['A']) = some (hits, c) ∧
      (∃ rest, (c.key_seq_fidx_ 'B').getD [] = (unit_calls ['A']).length :: rest) ∧
      (∀ it, c.hash_table_ 'B' = some it →
        (⟨it, (unit_calls ['A']).length⟩ : Cache_PCA.set_elem_t) ∈ c.data_fidx_ ∧
        ∃ c1, c.hit_update_internals 'B' it = some c1) ∧
      (∃ fi c1, c.get_elem_fidx 'B' = some (fi, c1) ∧
        (c1.full = true → c1.redundant_ = [] →
          ∃ far, c1.data_fidx_[c1.farthest_elem]? = some far)) :=
  ⟨by decide, by decide,
    C19_queue_and_selector_nonempty 1 (by decide) (unit_calls ['A']) 'B' ['A', 'B']⟩

/-- C20: in every state of a `Cache_LFU` reached from a fresh cache by `lookup_update`
calls, every record of `elem_search_set_` has counter 0 or 1, no two records have the
same counter, and there are at most two records, whatever the capacity and the calls. -/
theorem C20_lfu_selector_counters {K V : Type} [DecidableEq K] (cap : Nat)
    (calls : List (K × (K → V))) :
    ∃ hits c, (Cache_LFU.new cap : Cache_LFU K V).replay calls = some (hits, c) ∧
      (∀ r ∈ c.elem_search_set_, r.counter = 0 ∨ r.counter = 1) ∧
      c.elem_search_set_.Pairwise (fun a b => a.counter ≠ b.counter) ∧
      c.elem_search_set_.length ≤ 2 := by
  obtain ⟨hits, c, h1, hinv, -⟩ :=
    Cache_LFU.lfu_replay_spec calls (Cache_LFU.lfu_new_inv (K := K) (V := V) cap)
  refine ⟨hits, c, h1, ?_, ?_, ?_⟩
  · intro r hr
    have := hinv.wf.sel_counter r hr
    omega
  · exact hinv.wf.sel_sorted.imp (fun h => Nat.ne_of_lt h)
  · rcases lfu_set_shape hinv.wf.sel_sorted hinv.wf.sel_counter with h | ⟨a, h⟩ | ⟨a, h⟩ |
      ⟨a, b, h⟩ <;> simp [h]

end CACHES
